import Mathlib

/-
  Verification development for the article-translation document core.

  The definitions below are a shallow embedding of the Python sources:
    - latex_parser.py      (formula extraction, include flattening, segmentation)
    - formula_validator.py (paragraph validation and diff reporting)
    - dependency_analyzer.py (dependency population and topological sort)
    - models.py            (data model)

  Text is modelled as List Char (Python str); the handful of regular
  expressions used by the sources are compiled by hand into explicit
  matcher functions with the exact backtracking behaviour of the
  original patterns, as argued in comments next to each matcher.
-/

namespace AT

/-- Python str.strip and regex backslash-s whitespace class for ASCII text:
space, tab, newline, carriage return, vertical tab, form feed. -/
def isPySpace (c : Char) : Bool :=
  c == ' ' || c == '\t' || c == '\n' || c == '\r' || c == '\x0b' || c == '\x0c'

/-- Python str.strip: drop whitespace from both ends. -/
def pyStrip (s : List Char) : List Char :=
  ((s.dropWhile isPySpace).reverse.dropWhile isPySpace).reverse

/-- Auxiliary for collapsing whitespace runs: the Bool records whether the
previous character was whitespace (already emitted as one space). -/
def collapseWsAux : Bool → List Char → List Char
  | _, [] => []
  | prevWs, c :: rest =>
    if isPySpace c then
      if prevWs then collapseWsAux true rest
      else ' ' :: collapseWsAux true rest
    else c :: collapseWsAux false rest

/-- Python re.sub of one-or-more whitespace with a single space, as used by
FormulaValidator normalize (formula_validator.py line 160). -/
def collapseWs (s : List Char) : List Char := collapseWsAux false s

/-- First-occurrence deduplication of a list of strings.  This models
building a Python set from a list, with first-insertion iteration order
taken as the canonical enumeration of that set. -/
def pyDedupStr (l : List String) : List String :=
  l.foldl (fun acc x => if acc.contains x then acc else acc ++ [x]) []

/-
  Formula matchers (latex_parser.py lines 14-24).

  INLINE_PATTERN: dollar, one or more non-dollar characters (greedy),
  dollar.  Because the character class excludes the closing delimiter,
  backtracking cannot produce any other match: at a given start the match
  succeeds iff the text starts with a dollar, the run of non-dollar
  characters that follows is nonempty, and the character after that run
  is a dollar.
-/

/-- Matcher for the inline formula pattern.  Returns (consumed length,
captured group) on success. -/
def matchInline (s : List Char) : Option (Nat × List Char) :=
  match s with
  | '$' :: rest =>
    let run := rest.takeWhile (fun c => c != '$')
    if run.length == 0 then none
    else
      match rest.drop run.length with
      | '$' :: _ => some (run.length + 2, run)
      | _ => none
  | _ => none

/-- Matcher for the double-dollar display pattern: two dollars, one or more
non-dollar characters, two dollars.  The greedy run stops at the first
dollar after the interior; since shorter interiors would put a dollar
inside the non-dollar class, the pattern matches iff the two characters
at the end of the run are both dollars. -/
def matchDollarDollar (s : List Char) : Option (Nat × List Char) :=
  match s with
  | '$' :: '$' :: rest =>
    let run := rest.takeWhile (fun c => c != '$')
    if run.length == 0 then none
    else
      match rest.drop run.length with
      | '$' :: '$' :: _ => some (run.length + 4, run)
      | _ => none
  | _ => none

/-- Matcher for the bracketed display pattern: backslash-bracket, one or
more non-close-bracket characters, backslash-close-bracket.  The greedy
interior run stops at the first close bracket; the regex engine then
backtracks one character, so the pattern matches iff the character just
before that close bracket is a backslash and the remaining interior is
nonempty.  The captured group excludes that final backslash. -/
def matchBracketDisplay (s : List Char) : Option (Nat × List Char) :=
  match s with
  | '\\' :: '[' :: rest =>
    let run := rest.takeWhile (fun c => c != ']')
    match rest.drop run.length with
    | ']' :: _ =>
      if run.length ≥ 2 && run.getLast? == some '\\' then
        some (run.length + 3, run.take (run.length - 1))
      else none
    | _ => none
  | _ => none

/-- Strip an exact sequence of characters from the front of a list. -/
def stripPrefixChars : List Char → List Char → Option (List Char)
  | [], s => some s
  | _ :: _, [] => none
  | p :: ps, c :: cs => if p == c then stripPrefixChars ps cs else none

/-- Match a begin or end tag of a block environment: the literal tag text,
an optional star, then a closing brace.  Returns the consumed length. -/
def matchTag (tag : List Char) (s : List Char) : Option Nat :=
  match stripPrefixChars tag s with
  | none => none
  | some rest =>
    match rest with
    | '*' :: '\x7d' :: _ => some (tag.length + 2)
    | '\x7d' :: _ => some (tag.length + 1)
    | _ => none

/-- Lazy scan for the earliest end tag: returns (content length, consumed
end-tag length) for the shortest content, matching the non-greedy group
of the environment patterns under DOTALL. -/
def findEnd (endTag : List Char) : List Char → Option (Nat × Nat)
  | [] =>
    match matchTag endTag [] with
    | some e => some (0, e)
    | none => none
  | c :: rest =>
    match matchTag endTag (c :: rest) with
    | some e => some (0, e)
    | none => (findEnd endTag rest).map (fun p => (p.1 + 1, p.2))

/-- Matcher for a block environment display pattern (equation, align,
gather, multline, eqnarray, each with optional star) with a lazy DOTALL
interior. -/
def matchEnv (name : String) (s : List Char) : Option (Nat × List Char) :=
  match matchTag (("\\begin\x7b" ++ name).toList) s with
  | none => none
  | some b =>
    match findEnd (("\\end\x7b" ++ name).toList) (s.drop b) with
    | none => none
    | some (k, e) => some (b + k + e, (s.drop b).take k)

/-- The display-formula patterns in source order
(latex_parser.py DISPLAY_PATTERNS). -/
def displayMatchers : List (List Char → Option (Nat × List Char)) :=
  [matchDollarDollar, matchBracketDisplay,
   matchEnv ("equation"), matchEnv ("align"), matchEnv ("gather"),
   matchEnv ("multline"), matchEnv ("eqnarray")]

/-- Python re.finditer: scan left to right, recording non-overlapping
matches and resuming after each.  The Nat fuel equals the remaining
length, which suffices because every step consumes at least one
character.  Results are (start offset, consumed length, group). -/
def pyFindAux {α : Type} (matcher : List Char → Option (Nat × α)) :
    Nat → Nat → List Char → List (Nat × Nat × α)
  | 0, _, _ => []
  | _ + 1, _, [] => []
  | fuel + 1, pos, c :: rest =>
    match matcher (c :: rest) with
    | some (used, g) =>
      if used == 0 then pyFindAux matcher fuel (pos + 1) rest
      else (pos, used, g) :: pyFindAux matcher fuel (pos + used) ((c :: rest).drop used)
    | none => pyFindAux matcher fuel (pos + 1) rest

/-- Python re.finditer over a whole text. -/
def pyFind {α : Type} (matcher : List Char → Option (Nat × α)) (s : List Char) :
    List (Nat × Nat × α) :=
  pyFindAux matcher s.length 0 s

/-- Python re.sub with the empty string as replacement: delete every
non-overlapping match, scanning left to right. -/
def pyEraseAux {α : Type} (matcher : List Char → Option (Nat × α)) :
    Nat → List Char → List Char
  | 0, s => s
  | _ + 1, [] => []
  | fuel + 1, c :: rest =>
    match matcher (c :: rest) with
    | some (used, _) =>
      if used == 0 then c :: pyEraseAux matcher fuel rest
      else pyEraseAux matcher fuel ((c :: rest).drop used)
    | none => c :: pyEraseAux matcher fuel rest

/-- Python re.sub deleting all matches of one pattern. -/
def pyErase {α : Type} (matcher : List Char → Option (Nat × α)) (s : List Char) :
    List Char :=
  pyEraseAux matcher s.length s

/-- Formula kind (models.py FormulaType). -/
inductive FormulaType
  | INLINE
  | DISPLAY
deriving DecidableEq, Repr

/-- Extracted formula (models.py Formula). -/
structure Formula where
  content : String
  formula_type : FormulaType
  position : Nat
deriving DecidableEq, Repr

/-- Stable insertion of a formula after all entries with a position less
than or equal to its own. -/
def insertByPos (f : Formula) : List Formula → List Formula
  | [] => [f]
  | g :: gs => if g.position ≤ f.position then g :: insertByPos f gs else f :: g :: gs

/-- Python list.sort with key position: a stable ascending sort. -/
def stableSortByPos (l : List Formula) : List Formula :=
  l.foldl (fun acc f => insertByPos f acc) []

/-- Working copy of a text with every display-formula match deleted, as
built by the sequence of re.sub calls in latex_parser.py lines 201-203. -/
def workingCopy (t : List Char) : List Char :=
  displayMatchers.foldl (fun cur m => pyErase m cur) t

/-- LaTeXParser extract formulas (latex_parser.py lines 184-218): display
formulas are matched first against the original text; display spans are
then deleted from a working copy, inline formulas are matched against
that working copy (so their recorded offsets are working-copy offsets),
and the combined list is stably sorted by position. -/
def extractFormulas (text : String) : List Formula :=
  let t := text.toList
  let displays := displayMatchers.foldl (fun acc m =>
    acc ++ (pyFind m t).map (fun r =>
      Formula.mk (String.mk (pyStrip r.2.2)) FormulaType.DISPLAY r.1)) []
  let temp := workingCopy t
  let inlines := (pyFind matchInline temp).map (fun r =>
    Formula.mk (String.mk (pyStrip r.2.2)) FormulaType.INLINE r.1)
  stableSortByPos (displays ++ inlines)

/-- LaTeXParser extract formulas from paragraph (latex_parser.py lines
220-232): the contents of the inline and display formulas, in order. -/
def extractFormulasFromParagraph (paragraph : String) : List String × List String :=
  let formulas := extractFormulas paragraph
  ((formulas.filter (fun f => f.formula_type == FormulaType.INLINE)).map (fun f => f.content),
   (formulas.filter (fun f => f.formula_type == FormulaType.DISPLAY)).map (fun f => f.content))

/-- Test whether a literal pattern occurs in a text at a given offset. -/
def spanEq (s : List Char) (p : Nat) (pat : List Char) : Bool :=
  (s.drop p).take pat.length == pat

/-
  Paragraph splitting (formula_validator.py line 82):
  re.split on newline, whitespace-star, newline.  The greedy whitespace
  run backtracks until the character right after it is a newline, so the
  separator consumes up to and including the last newline of the
  whitespace run that follows the opening newline.
-/

/-- Matcher for the paragraph separator pattern. -/
def matchParaSep (s : List Char) : Option (Nat × Unit) :=
  match s with
  | '\n' :: rest =>
    let w := rest.takeWhile isPySpace
    match w.reverse.findIdx? (fun c => c == '\n') with
    | some j => some (1 + (w.length - 1 - j) + 1, ())
    | none => none
  | _ => none

/-- Cut a text at a list of (start, length) separator matches, returning
the segments between them (Python re.split). -/
def splitAtMatches (s : List Char) : List (Nat × Nat) → Nat → List (List Char)
  | [], start => [s.drop start]
  | (p, u) :: rest, start => ((s.drop start).take (p - start)) :: splitAtMatches s rest (p + u)

/-- Python re.split over a whole text. -/
def pySplit {α : Type} (matcher : List Char → Option (Nat × α)) (s : List Char) :
    List (List Char) :=
  splitAtMatches s ((pyFind matcher s).map (fun r => (r.1, r.2.1))) 0

/-- FormulaValidator split paragraphs (formula_validator.py lines 72-83):
split on blank-line separators, strip each piece, keep nonempty pieces. -/
def splitParagraphs (text : String) : List String :=
  (((pySplit matchParaSep text.toList).map pyStrip).filter
    (fun p => !(p.isEmpty))).map String.mk

/-- FormulaValidator normalize formula (formula_validator.py lines
150-161): collapse whitespace runs, then strip. -/
def normalizeFormula (s : String) : String :=
  String.mk (pyStrip (collapseWs s.toList))

/-- Section record (models.py Section).  The dependencies field models a
Python set of strings as a list carrying the set's iteration order. -/
structure Section where
  id : String
  title : String
  content : String
  level : Nat
  formulas : List Formula
  dependencies : List String
  translation : Option String
  translation_attempts : Nat
deriving DecidableEq, Repr

/-- Document record (models.py Document). -/
structure Document where
  source_path : String
  content : String
  sections : List Section
  preamble : String
  postamble : String
deriving DecidableEq, Repr

/-- Per-paragraph validation record (models.py ParagraphValidation). -/
structure ParagraphValidation where
  paragraph_index : Nat
  source_inline : List String
  target_inline : List String
  source_display : List String
  target_display : List String
  inline_match : Bool
  display_match : Bool
  diff : Option String
deriving DecidableEq, Repr

/-- Equality test of the Python sets built from two lists of strings:
mutual containment of their members. -/
def pySetEqStr (a b : List String) : Bool :=
  a.all (fun x => b.contains x) && b.all (fun x => a.contains x)

/-- Enumeration of the Python set difference set(a) - set(b).  CPython
iterates a set of strings in a hash-and-seed dependent order; this model
fixes first-occurrence order as its canonical enumeration, and the
enumeration-order sensitivity of the diff text is examined separately
through generateDiffWith. -/
def pySetDiffEnum (a b : List String) : List String :=
  (pyDedupStr a).filter (fun x => !(b.contains x))

/-- FormulaValidator generate diff (formula_validator.py lines 163-211)
with the enumeration orders of the two inline set differences made
explicit as arguments. -/
def generateDiffWith (missingInline extraInline : List String)
    (srcDisplay tgtDisplay : List String) : String :=
  let missingPart :=
    if missingInline.isEmpty then []
    else ["Missing inline formulas: " ++
      String.intercalate (", ") (missingInline.map (fun f => "$" ++ f ++ "$"))]
  let extraPart :=
    if extraInline.isEmpty then []
    else ["Extra inline formulas: " ++
      String.intercalate (", ") (extraInline.map (fun f => "$" ++ f ++ "$"))]
  let displayPart :=
    if srcDisplay == tgtDisplay then []
    else
      ["Display formulas mismatch:",
       "  Source: " ++ toString srcDisplay.length ++ " formulas",
       "  Target: " ++ toString tgtDisplay.length ++ " formulas"]
      ++ ((srcDisplay.zip tgtDisplay).enum.filterMap (fun p =>
           if p.2.1 != p.2.2 then some ("  Formula " ++ toString (p.1 + 1) ++ " differs")
           else none))
      ++ (if srcDisplay.length != tgtDisplay.length then
            ["  Count mismatch: " ++ toString srcDisplay.length ++ " vs " ++
              toString tgtDisplay.length]
          else [])
  String.intercalate ("; ") (missingPart ++ extraPart ++ displayPart)

/-- FormulaValidator generate diff with the canonical set enumeration. -/
def generateDiff (srcInline tgtInline srcDisplay tgtDisplay : List String) : String :=
  generateDiffWith (pySetDiffEnum srcInline tgtInline) (pySetDiffEnum tgtInline srcInline)
    srcDisplay tgtDisplay

/-- FormulaValidator validate paragraph (formula_validator.py lines
85-131): extract and normalize formulas from both sides, compare inline
formulas as sets and display formulas as sequences, and attach a diff on
mismatch. -/
def validateParagraph (index : Nat) (source target : String) : ParagraphValidation :=
  let srcPair := extractFormulasFromParagraph source
  let tgtPair := extractFormulasFromParagraph target
  let srcInline := srcPair.1.map normalizeFormula
  let tgtInline := tgtPair.1.map normalizeFormula
  let srcDisplay := srcPair.2.map normalizeFormula
  let tgtDisplay := tgtPair.2.map normalizeFormula
  let inlineMatch := pySetEqStr srcInline tgtInline
  let displayMatch := srcDisplay == tgtDisplay
  let diff :=
    if !inlineMatch || !displayMatch then
      some (generateDiff srcInline tgtInline srcDisplay tgtDisplay)
    else none
  ParagraphValidation.mk index srcInline tgtInline srcDisplay tgtDisplay
    inlineMatch displayMatch diff

/-- FormulaValidator validate as whole (formula_validator.py lines
133-148) on the raw source and target texts. -/
def validateAsWholeCore (src tgt : String) : List ParagraphValidation :=
  let v := validateParagraph 0 src tgt
  if !(v.inline_match && v.display_match) then [v] else []

/-- Distance of two natural numbers as Python abs of their difference. -/
def natDist (a b : Nat) : Nat := (Int.ofNat a - Int.ofNat b).natAbs

/-- FormulaValidator validate section (formula_validator.py lines 41-70)
on the source text and rewritten text: fall back to whole-text validation
when the paragraph counts differ by more than one, otherwise validate
index-aligned pairs up to the shorter count, keeping only problematic
records. -/
def validateSectionCore (src tgt : String) : List ParagraphValidation :=
  let sourceParagraphs := splitParagraphs src
  let targetParagraphs := splitParagraphs tgt
  if natDist sourceParagraphs.length targetParagraphs.length > 1 then
    validateAsWholeCore src tgt
  else
    (List.range (min sourceParagraphs.length targetParagraphs.length)).filterMap
      (fun i =>
        let v := validateParagraph i (sourceParagraphs.getD i ("")) (targetParagraphs.getD i (""))
        if !v.inline_match || !v.display_match then some v else none)

/-- FormulaValidator validate section on a Section record.  The Python
code reads the translation field directly (validate_document only calls
it when a translation is present); an absent translation is read as the
empty string here. -/
def validateSection (sec : Section) : List ParagraphValidation :=
  validateSectionCore sec.content (sec.translation.getD (""))

/-
  Dependency analyzer (dependency_analyzer.py).  Python dicts preserve
  insertion order, so they are modelled as association lists with
  first-match lookup and in-place update of existing keys.
-/

/-- Lookup in an ordered association list with a default, modelling
defaultdict read access for int values: the first matching entry wins. -/
def assocGetD (m : List (String × Int)) (k : String) (d : Int) : Int :=
  match m with
  | [] => d
  | (k2, v) :: rest => if k2 == k then v else assocGetD rest k d

/-- Write to an ordered association list: overwrite the first matching
entry in place, or append a new entry, as a Python dict does. -/
def assocSet (m : List (String × Int)) (k : String) (v : Int) : List (String × Int) :=
  match m with
  | [] => [(k, v)]
  | (k2, v2) :: rest => if k2 == k then (k, v) :: rest else (k2, v2) :: assocSet rest k v

/-- Read from the adjacency map, modelling defaultdict(list) access:
the first matching entry wins. -/
def graphGet (g : List (String × List String)) (k : String) : List String :=
  match g with
  | [] => []
  | (k2, l) :: rest => if k2 == k then l else graphGet rest k

/-- Append one value to the adjacency list of a key, creating the key
with a singleton list when absent, as graph[dep].append does. -/
def graphAppend (g : List (String × List String)) (k : String) (v : String) :
    List (String × List String) :=
  match g with
  | [] => [(k, [v])]
  | (k2, l) :: rest => if k2 == k then (k2, l ++ [v]) :: rest else (k2, l) :: graphAppend rest k v

/-- Initialization loop of topological sort (dependency_analyzer.py lines
142-144): one zero entry per section id, first occurrence only. -/
def initInDegree (secs : List Section) : List (String × Int) :=
  secs.foldl (fun m s => if m.any (fun p => p.1 == s.id) then m else m ++ [(s.id, 0)]) []

/-- Graph-building loop of topological sort (dependency_analyzer.py lines
146-150): for every section and every dependency, add the edge dep to
section id and bump the in-degree of the section id. -/
def buildGraph (secs : List Section) :
    List (String × List String) × List (String × Int) :=
  secs.foldl (fun gm s =>
    s.dependencies.foldl (fun gm2 dep =>
      (graphAppend gm2.1 dep s.id,
       assocSet gm2.2 s.id (assocGetD gm2.2 s.id 0 + 1))) gm)
    ([], initInDegree secs)

/-- One pass over the successors of a popped node (dependency_analyzer.py
lines 162-165): decrement each in-degree, enqueue nodes reaching zero. -/
def kahnVisit (st : List (String × Int) × List String) (nb : String) :
    List (String × Int) × List String :=
  let d := assocGetD st.1 nb 0 - 1
  (assocSet st.1 nb d, if d == 0 then st.2 ++ [nb] else st.2)

/-- Kahn worklist loop (dependency_analyzer.py lines 158-165).  The fuel
argument bounds the number of iterations; topologicalSort supplies a
provably sufficient amount.  The full final state is returned. -/
def kahnAux (graph : List (String × List String)) :
    Nat → List (String × Int) → List String → List String →
    List (String × Int) × List String × List String
  | 0, inDeg, queue, sorted => (inDeg, queue, sorted)
  | _ + 1, inDeg, [], sorted => (inDeg, [], sorted)
  | fuel + 1, inDeg, current :: queueRest, sorted =>
    let st := (graphGet graph current).foldl kahnVisit (inDeg, queueRest)
    kahnAux graph fuel st.1 st.2 (sorted ++ [current])

/-- Clamped total of the in-degree values, used only to size the fuel. -/
def inDegMeasure (m : List (String × Int)) : Nat :=
  (m.map (fun p => p.2.toNat)).sum

/-- Fuel that provably lets the worklist loop run to exhaustion. -/
def kahnFuel (inDeg : List (String × Int)) (queue : List String) : Nat :=
  queue.length + inDegMeasure inDeg + 1

/-- Last-wins dictionary built from sections keyed by id
(dependency_analyzer.py line 173). -/
def dictLastGet (secs : List Section) (i : String) : Option Section :=
  secs.reverse.find? (fun s => s.id == i)

/-- DependencyAnalyzer topological sort (dependency_analyzer.py lines
128-174).  The Bool is true exactly when the cycle warning is printed and
the original section order is returned. -/
def topologicalSort (doc : Document) : List Section × Bool :=
  let gm := buildGraph doc.sections
  let queue0 := (gm.2.filter (fun p => p.2 == 0)).map (fun p => p.1)
  let res := kahnAux gm.1 (kahnFuel gm.2 queue0) gm.2 queue0 []
  let sortedIds := res.2.2
  if sortedIds.length != doc.sections.length then (doc.sections, true)
  else (sortedIds.filterMap (fun i => dictLastGet doc.sections i), false)

/-- Lookup in the parsed dependencies dictionary. -/
def depDictGet (parsed : List (String × List String)) (k : String) :
    Option (List String) :=
  match parsed.find? (fun p => p.1 == k) with
  | some p => some p.2
  | none => none

/-- DependencyAnalyzer analyze dependencies, update phase
(dependency_analyzer.py lines 31-32 and 64-67): documents with at most
one section are returned untouched; otherwise each section whose id is a
key of the parsed dependencies dictionary gets that entry, converted to
a set, as its new dependencies.  The dictionary is the parsed form of
the external analyzer response; building it from the raw response is
network glue outside this model. -/
def analyzeDependencies (doc : Document) (parsed : List (String × List String)) :
    Document :=
  if doc.sections.length ≤ 1 then doc
  else
    Document.mk doc.source_path doc.content
      (doc.sections.map (fun s =>
        match depDictGet parsed s.id with
        | some ds => Section.mk s.id s.title s.content s.level s.formulas
            (pyDedupStr ds) s.translation s.translation_attempts
        | none => s))
      doc.preamble doc.postamble

/-
  Section segmentation and include flattening (latex_parser.py).
-/

/-- Match a brace-delimited nonempty argument: open brace, one or more
non-close-brace characters (greedy), close brace. -/
def matchBraceArg (r : List Char) : Option (Nat × List Char) :=
  match r with
  | '\x7b' :: rest =>
    let run := rest.takeWhile (fun c => c != '\x7d')
    if run.length == 0 then none
    else
      match rest.drop run.length with
      | '\x7d' :: _ => some (run.length + 2, run)
      | _ => none
  | _ => none

/-- Try a list of alternation words after a backslash, then a brace
argument.  The words used below are pairwise prefix-incompatible, so
trying them in order is exactly the regex alternation. -/
def tryCmdWords (words : List String) (rest : List Char) :
    Option (Nat × (List Char × List Char)) :=
  match words with
  | [] => none
  | w :: ws =>
    match stripPrefixChars w.toList rest with
    | some r2 =>
      match matchBraceArg r2 with
      | some (used, arg) => some (1 + w.length + used, (w.toList, arg))
      | none => tryCmdWords ws rest
    | none => tryCmdWords ws rest

/-- Matcher for the section heading pattern (latex_parser.py line 27):
backslash, one of section, subsection or subsubsection, then a brace
argument.  Groups are the heading word and the title. -/
def matchSectionCmd (s : List Char) : Option (Nat × (List Char × List Char)) :=
  match s with
  | '\\' :: rest => tryCmdWords (["section", "subsection", "subsubsection"]) rest
  | _ => none

/-- Matcher for the inclusion directive pattern (latex_parser.py line
73): backslash, input or include, then a brace argument. -/
def matchIncludeCmd (s : List Char) : Option (Nat × (List Char × List Char)) :=
  match s with
  | '\\' :: rest => tryCmdWords (["input", "include"]) rest
  | _ => none

/-- Heading depth from the heading word (latex_parser.py line 162). -/
def levelOfWord (w : List Char) : Nat :=
  if w == ("subsection").toList then 2
  else if w == ("subsubsection").toList then 3
  else if w == ("section").toList then 1
  else 1

/-- LaTeXParser parse sections (latex_parser.py lines 140-182): when no
heading matches, the whole content is one synthetic Section; otherwise
each heading opens a Section whose content runs from the end of its
match to the start of the next match or the end of the content, stripped,
with ids assigned positionally. -/
def parseSections (content : String) : List Section :=
  let t := content.toList
  let ms := pyFind matchSectionCmd t
  if ms.isEmpty then
    [Section.mk ("main") ("Main Content") content 0 (extractFormulas content) [] none 0]
  else
    (ms.zip ((ms.map (fun r => r.1)).drop 1 ++ [t.length])).enum.map (fun p =>
      let m := p.2.1
      let stop := p.2.2
      let start := m.1 + m.2.1
      let secContent := String.mk (pyStrip ((t.drop start).take (stop - start)))
      Section.mk ("sec_" ++ toString p.1) (String.mk m.2.2.2) secContent
        (levelOfWord m.2.2.1) (extractFormulas secContent) [] none 0)

/-- Leftmost occurrence of a literal pattern in a text. -/
def findSub (pat : List Char) : List Char → Option Nat
  | [] => if pat.isEmpty then some 0 else none
  | c :: rest =>
    if (c :: rest).take pat.length == pat then some 0
    else (findSub pat rest).map (fun n => n + 1)

/-- LaTeXParser parse document, segmentation phase (latex_parser.py lines
113-138) applied to already-flattened content: the preamble is the text
before the first begin-document marker, the body is the text between
that marker and the first end-document marker after it (the whole
content when the pair is absent), and the postamble is the text after
the first end-document marker. -/
def parseDocumentFromContent (path : String) (content : String) : Document :=
  let t := content.toList
  let beginTag := ("\\begin\x7bdocument\x7d").toList
  let endTag := ("\\end\x7bdocument\x7d").toList
  let preamble :=
    match findSub beginTag t with
    | some i => String.mk (t.take i)
    | none => ""
  let mainContent :=
    match findSub beginTag t with
    | some i =>
      let afterBegin := t.drop (i + beginTag.length)
      match findSub endTag afterBegin with
      | some j => String.mk (afterBegin.take j)
      | none => content
    | none => content
  let postamble :=
    match findSub endTag t with
    | some k => String.mk (t.drop (k + endTag.length))
    | none => ""
  Document.mk path mainContent (parseSections mainContent) preamble postamble

/-- Remove a comment from one physical line: truncate at the first
percent sign not directly preceded by a backslash (latex_parser.py line
66).  The Option carries the previous character. -/
def removeCommentsLine : Option Char → List Char → List Char
  | _, [] => []
  | prev, c :: rest =>
    if c == '%' && prev != some '\\' then []
    else c :: removeCommentsLine (some c) rest

/-- Split a text on newline characters, keeping empty lines, as Python
str.split of a newline does. -/
def splitOnNewline : List Char → List (List Char)
  | [] => [[]]
  | c :: rest =>
    if c == '\n' then [] :: splitOnNewline rest
    else
      match splitOnNewline rest with
      | [] => [[c]]
      | l :: ls => (c :: l) :: ls

/-- LaTeXParser remove comments (latex_parser.py lines 61-68). -/
def removeComments (content : List Char) : List Char :=
  (((splitOnNewline content).map (removeCommentsLine none)).intersperse ('\n'.toString.toList)).flatten

/-- Suffix test on character lists (Python str.endswith). -/
def endsWithChars (s pat : List Char) : Bool :=
  pat.length ≤ s.length && (s.drop (s.length - pat.length) == pat)

/-- File-name normalization of the include resolver: append a .tex
extension when absent (latex_parser.py lines 78-80). -/
def normalizeTexName (fname : List Char) : List Char :=
  if endsWithChars fname ((".tex").toList) then fname else fname ++ (".tex").toList

/-- Warning line printed for a missing included file. -/
def missingFileWarning (path : String) : String :=
  "Warning: included file not found: " ++ path

/-- Path of an included file relative to the base directory of the root
document (latex_parser.py line 82). -/
def includePath (baseDir : String) (fname : List Char) : String :=
  baseDir ++ "/" ++ String.mk (normalizeTexName fname)

/-- LaTeXParser resolve includes (latex_parser.py lines 70-99), with the
file system passed in as an association list from path to contents and
warnings returned instead of printed.  The Python recursion into included
files is unbounded (a documented non-goal: a self-including chain
recurses indefinitely); this model bounds the total work by a fuel that
every recursive call consumes, one unit per scanned character and one
unit per spliced file, so a run given enough fuel computes exactly the
terminating Python result. -/
def resolveAux (preserveComments : Bool) (fs : List (String × String)) (baseDir : String) :
    Nat → List Char → List Char × List String
  | 0, s => (s, [])
  | _ + 1, [] => ([], [])
  | fuel + 1, c :: rest =>
    match matchIncludeCmd (c :: rest) with
    | none =>
      let tail := resolveAux preserveComments fs baseDir fuel rest
      (c :: tail.1, tail.2)
    | some (used, (_, fname)) =>
      if used == 0 then
        let tail := resolveAux preserveComments fs baseDir fuel rest
        (c :: tail.1, tail.2)
      else
        let matchedText := (c :: rest).take used
        let path := includePath baseDir fname
        let tail := resolveAux preserveComments fs baseDir fuel ((c :: rest).drop used)
        match fs.find? (fun p => p.1 == path) with
        | none => (matchedText ++ tail.1, missingFileWarning path :: tail.2)
        | some entry =>
          let inc0 :=
            if preserveComments then entry.2.toList else removeComments entry.2.toList
          let inner := resolveAux preserveComments fs baseDir fuel inc0
          (inner.1 ++ tail.1, inner.2 ++ tail.2)

/-- LaTeXParser resolve includes over a whole text with a given fuel. -/
def resolveIncludes (preserveComments : Bool) (fs : List (String × String))
    (baseDir : String) (fuel : Nat) (content : String) : List Char × List String :=
  resolveAux preserveComments fs baseDir fuel content.toList

/-
  Derived notions used to state and prove properties of the dependency
  analyzer.
-/

/-- Ids of the sections in document order. -/
def ids (secs : List Section) : List String := secs.map (fun s => s.id)

/-- Dependencies of the first section carrying a given id. -/
def depsOf (secs : List Section) (x : String) : List String :=
  match secs.find? (fun s => s.id == x) with
  | some s => s.dependencies
  | none => []

/-- Keys of an ordered association list, in order. -/
def assocKeys (m : List (String × Int)) : List String := m.map (fun p => p.1)

/-- Index of the first occurrence of an element in a list. -/
def idxIn {α : Type} [DecidableEq α] : List α → α → Nat
  | [], _ => 0
  | x :: rest, a => if x = a then 0 else idxIn rest a + 1

/-- Worklist state reached by topologicalSort before its final branch:
the in-degree map, the remaining queue and the emitted order. -/
def kahnRun (secs : List Section) :
    List (String × Int) × List String × List String :=
  let gm := buildGraph secs
  let queue0 := (gm.2.filter (fun p => p.2 == 0)).map (fun p => p.1)
  kahnAux gm.1 (kahnFuel gm.2 queue0) gm.2 queue0 []

/-- Edge of the dependency graph: a is a dependency of the section whose
id is b, so b must be processed after a. -/
def depEdge (secs : List Section) (a b : String) : Prop :=
  ∃ s ∈ secs, s.id = b ∧ a ∈ s.dependencies

/-- Fallback Section value for total lookups. -/
def defaultSection : Section :=
  Section.mk ("") ("") ("") 0 [] [] none 0

/-- First section carrying a given id. -/
def secOf (secs : List Section) (x : String) : Section :=
  (secs.find? (fun s => s.id == x)).getD defaultSection

/-- Invariant of the Kahn worklist loop, relating the in-degree map, the
queue and the emitted order to the fixed section list: the emitted and
queued ids are distinct section ids; the in-degree of every id counts its
dependencies not yet emitted; an id has been emitted or queued exactly
when all its dependencies are emitted; and every emitted id appears after
all its dependencies. -/
structure KInv (secs : List Section) (inDeg : List (String × Int))
    (queue sorted : List String) : Prop where
  nd : (sorted ++ queue).Nodup
  sub : ∀ x ∈ sorted ++ queue, x ∈ ids secs
  deg : ∀ x ∈ ids secs, assocGetD inDeg x 0 =
    Int.ofNat (((depsOf secs x).filter (fun d => !(sorted.contains d))).length)
  mem : ∀ x, x ∈ sorted ++ queue ↔
    (x ∈ ids secs ∧ ∀ d ∈ depsOf secs x, d ∈ sorted)
  ord : ∀ x ∈ sorted, ∀ d ∈ depsOf secs x, d ∈ sorted ∧ idxIn sorted d < idxIn sorted x

/-
  Concrete instances used by witnesses and counterexamples.
-/

/-- Concrete acyclic document for the topological-sort witness. -/
def acyclicDoc : Document :=
  Document.mk ("d") ("")
    [Section.mk ("a") ("A") ("") 1 [] (["b"]) none 0,
     Section.mk ("b") ("B") ("") 1 [] [] none 0,
     Section.mk ("c") ("C") ("") 1 [] (["a", "b"]) none 0] ("") ("")

/-- Concrete cyclic document for the fallback witness. -/
def cyclicDoc : Document :=
  Document.mk ("d") ("")
    [Section.mk ("a") ("A") ("") 1 [] (["b"]) none 0,
     Section.mk ("b") ("B") ("") 1 [] (["a"]) none 0,
     Section.mk ("c") ("C") ("") 1 [] [] none 0] ("") ("")

/-- Concrete document with a dependency on an id that matches no
section. -/
def danglingDoc : Document :=
  Document.mk ("d") ("")
    [Section.mk ("a") ("A") ("") 1 [] (["ghost"]) none 0,
     Section.mk ("b") ("B") ("") 1 [] [] none 0] ("") ("")

/-- Concrete Section whose source has three paragraphs and whose
rewritten text has one, so the paragraph counts differ by two. -/
def sec3to1 : Section :=
  Section.mk ("s0") ("T") ("a $x$\n\nb\n\nc") 1 [] [] (some ("$z$")) 0

/-- Concrete document produced by the segmentation phase of the pipeline,
used to exercise the dependency-population step. -/
def selfLoopDoc : Document :=
  parseDocumentFromContent ("main.tex")
    ("\\begin\x7bdocument\x7d\\section\x7bA\x7dx $u$\n\\section\x7bB\x7dy\\end\x7bdocument\x7d")

/-
  Theorems.
-/

theorem pySetEqStr_iff (a b : List String) :
    pySetEqStr a b = true ↔ ∀ x, x ∈ a ↔ x ∈ b := by
  simp only [pySetEqStr, Bool.and_eq_true, List.all_eq_true, List.elem_iff]
  constructor
  · rintro ⟨h1, h2⟩ x
    exact ⟨fun hx => h1 x hx, fun hx => h2 x hx⟩
  · intro h
    exact ⟨fun x hx => (h x).1 hx, fun x hx => (h x).2 hx⟩

theorem pySetEqStr_self (a : List String) : pySetEqStr a a = true := by
  simp [pySetEqStr_iff]

theorem validateParagraph_inline_match (i : Nat) (s t : String) :
    (validateParagraph i s t).inline_match =
      pySetEqStr ((extractFormulasFromParagraph s).1.map normalizeFormula)
        ((extractFormulasFromParagraph t).1.map normalizeFormula) := by
  simp [validateParagraph]

theorem validateParagraph_display_match (i : Nat) (s t : String) :
    (validateParagraph i s t).display_match =
      (((extractFormulasFromParagraph s).2.map normalizeFormula) ==
        ((extractFormulasFromParagraph t).2.map normalizeFormula)) := by
  simp [validateParagraph]

theorem validateParagraph_index (i : Nat) (s t : String) :
    (validateParagraph i s t).paragraph_index = i := by
  simp [validateParagraph]

theorem validateParagraph_self_matches (i : Nat) (p : String) :
    (validateParagraph i p p).inline_match = true ∧
    (validateParagraph i p p).display_match = true := by
  refine ⟨?_, ?_⟩
  · rw [validateParagraph_inline_match]; exact pySetEqStr_self _
  · rw [validateParagraph_display_match]; exact beq_self_eq_true _

theorem natDist_self (n : Nat) : natDist n n = 0 := by
  simp [natDist]

/-- Claim C2: the validator judges inline formulas as equal exactly when
their normalized contents form equal sets (order-independent, duplicates
collapse), and judges display formulas as equal exactly when their
normalized contents form equal sequences; in particular inline x, y
versus y, x agree while the swapped display pair does not. -/
theorem validateParagraph_inline_set_display_seq :
    (∀ (i : Nat) (s t : String),
      ((validateParagraph i s t).inline_match = true ↔
        ∀ x, x ∈ (extractFormulasFromParagraph s).1.map normalizeFormula ↔
             x ∈ (extractFormulasFromParagraph t).1.map normalizeFormula)
      ∧ ((validateParagraph i s t).display_match = true ↔
        (extractFormulasFromParagraph s).2.map normalizeFormula =
          (extractFormulasFromParagraph t).2.map normalizeFormula))
    ∧ (extractFormulasFromParagraph ("Let $x$ and $y$.")).1 = ["x", "y"]
    ∧ (extractFormulasFromParagraph ("Let $y$ and $x$.")).1 = ["y", "x"]
    ∧ (validateParagraph 0 ("Let $x$ and $y$.") ("Let $y$ and $x$.")).inline_match = true
    ∧ (extractFormulasFromParagraph ("$$a=1$$ $$b=2$$")).2 = ["a=1", "b=2"]
    ∧ (extractFormulasFromParagraph ("$$b=2$$ $$a=1$$")).2 = ["b=2", "a=1"]
    ∧ (validateParagraph 0 ("$$a=1$$ $$b=2$$") ("$$b=2$$ $$a=1$$")).display_match = false := by
  refine ⟨fun i s t => ⟨?_, ?_⟩, by decide, by decide, by decide, by decide, by decide, by decide⟩
  · rw [validateParagraph_inline_match]; exact pySetEqStr_iff _ _
  · rw [validateParagraph_display_match]; exact beq_iff_eq

/-- Claim C5: a Section whose rewritten content is a character-for-character
copy of its source content yields zero ParagraphValidation records. -/
theorem validateSection_verbatim_empty (sec : Section)
    (h : sec.translation = some sec.content) :
    validateSection sec = [] := by
  unfold validateSection
  rw [h]
  show validateSectionCore sec.content sec.content = []
  unfold validateSectionCore
  simp only [natDist_self, gt_iff_lt, Nat.min_self]
  rw [if_neg (by omega), List.filterMap_eq_nil_iff]
  intro i _
  have hm := validateParagraph_self_matches i
    ((splitParagraphs sec.content).getD i (""))
  rw [hm.1, hm.2]
  simp

/-- Witness for claim C5 at a concrete Section. -/
theorem validateSection_verbatim_empty_witness :
    validateSection (Section.mk ("s0") ("T") ("Hi $x$.\n\n$$y=2$$ done")
      1 [] [] (some ("Hi $x$.\n\n$$y=2$$ done")) 0) = [] :=
  validateSection_verbatim_empty _ rfl

/-- Claim C9: the diff text is produced by joining Python set differences
in set-iteration order; two enumerations of one and the same set of
missing inline formulas (here a, b versus b, a, a permutation, hence the
same set) produce different diff strings, so the diff emitted for a fixed
source and target pair varies with the interpreter hash seed that fixes
the set order, and is not a function of the texts alone. -/
theorem generateDiff_set_order_sensitive :
    (["a", "b"] : List String).Perm (["b", "a"])
    ∧ generateDiffWith (["a", "b"]) ([]) ([]) ([]) ≠
        generateDiffWith (["b", "a"]) ([]) ([]) ([]) := by
  constructor
  · decide
  · decide

theorem bool_fail_iff (a b : Bool) : (!a || !b) = true ↔ ¬(a = true ∧ b = true) := by
  cases a <;> cases b <;> simp

/-- Claim C6: when the nonempty paragraph counts of source and rewritten
text differ by more than one, the validator validates the two whole texts
as a single pair recorded with paragraph index zero; otherwise it
validates index-aligned pairs up to the shorter paragraph count, keeping
exactly the failing ones. -/
theorem validateSection_alignment_policy (sec : Section) (tr : String)
    (htr : sec.translation = some tr) :
    (natDist (splitParagraphs sec.content).length (splitParagraphs tr).length > 1 →
      validateSection sec = validateAsWholeCore sec.content tr ∧
      (∀ v ∈ validateSection sec, v.paragraph_index = 0 ∧
        v = validateParagraph 0 sec.content tr) ∧
      (validateSection sec = [] ↔
        ((validateParagraph 0 sec.content tr).inline_match = true ∧
         (validateParagraph 0 sec.content tr).display_match = true)))
    ∧ (natDist (splitParagraphs sec.content).length (splitParagraphs tr).length ≤ 1 →
      (∀ v ∈ validateSection sec, ∃ i,
        i < min (splitParagraphs sec.content).length (splitParagraphs tr).length ∧
        v = validateParagraph i ((splitParagraphs sec.content).getD i (""))
              ((splitParagraphs tr).getD i ("")) ∧
        ¬(v.inline_match = true ∧ v.display_match = true))
      ∧ (∀ i, i < min (splitParagraphs sec.content).length (splitParagraphs tr).length →
        ¬((validateParagraph i ((splitParagraphs sec.content).getD i (""))
              ((splitParagraphs tr).getD i (""))).inline_match = true ∧
          (validateParagraph i ((splitParagraphs sec.content).getD i (""))
              ((splitParagraphs tr).getD i (""))).display_match = true) →
        validateParagraph i ((splitParagraphs sec.content).getD i (""))
              ((splitParagraphs tr).getD i ("")) ∈ validateSection sec)) := by
  have hsec : validateSection sec = validateSectionCore sec.content tr := by
    unfold validateSection
    rw [htr]
    rfl
  constructor
  · intro hgt
    have hcore : validateSectionCore sec.content tr = validateAsWholeCore sec.content tr := by
      unfold validateSectionCore
      rw [if_pos hgt]
    rw [hsec, hcore]
    refine ⟨rfl, ?_, ?_⟩
    · intro v hv
      unfold validateAsWholeCore at hv
      by_cases hc : (!((validateParagraph 0 sec.content tr).inline_match &&
          (validateParagraph 0 sec.content tr).display_match)) = true
      · rw [if_pos hc] at hv
        rw [List.mem_singleton] at hv
        subst hv
        exact ⟨validateParagraph_index 0 sec.content tr, rfl⟩
      · rw [if_neg hc] at hv
        exact absurd hv (List.not_mem_nil _)
    · unfold validateAsWholeCore
      cases hi : (validateParagraph 0 sec.content tr).inline_match <;>
        cases hd : (validateParagraph 0 sec.content tr).display_match <;>
        simp [hi, hd]
  · intro hle
    have hcore : validateSectionCore sec.content tr =
        (List.range (min (splitParagraphs sec.content).length
          (splitParagraphs tr).length)).filterMap (fun i =>
            let v := validateParagraph i ((splitParagraphs sec.content).getD i (""))
              ((splitParagraphs tr).getD i (""))
            if !v.inline_match || !v.display_match then some v else none) := by
      unfold validateSectionCore
      rw [if_neg (by omega)]
    rw [hsec, hcore]
    constructor
    · intro v hv
      rw [List.mem_filterMap] at hv
      obtain ⟨i, hi, hf⟩ := hv
      rw [List.mem_range] at hi
      simp only at hf
      by_cases hc : (!(validateParagraph i ((splitParagraphs sec.content).getD i (""))
            ((splitParagraphs tr).getD i (""))).inline_match ||
          !(validateParagraph i ((splitParagraphs sec.content).getD i (""))
            ((splitParagraphs tr).getD i (""))).display_match) = true
      · rw [if_pos hc] at hf
        injection hf with hf
        subst hf
        exact ⟨i, hi, rfl, (bool_fail_iff _ _).1 hc⟩
      · rw [if_neg hc] at hf
        cases hf
    · intro i hi hbad
      rw [List.mem_filterMap]
      refine ⟨i, List.mem_range.2 hi, ?_⟩
      simp only
      rw [if_pos ((bool_fail_iff _ _).2 hbad)]

/-- Witness for claim C6: the concrete Section with a three-to-one
paragraph count mismatch is validated as a whole, and a concrete aligned
Section has its failing pair validated at its own index. -/
theorem validateSection_alignment_policy_witness :
    validateSection sec3to1 = validateAsWholeCore sec3to1.content ("$z$") :=
  (((validateSection_alignment_policy sec3to1 ("$z$") rfl).1 (by decide)).1)

/-- Membership in the deduplicated list implies membership in the
original list. -/
theorem pyDedupStr_subset (l : List String) (x : String) (h : x ∈ pyDedupStr l) : x ∈ l := by
  suffices haux : ∀ (l : List String) (acc : List String), x ∈ l.foldl
      (fun acc y => if acc.contains y then acc else acc ++ [y]) acc → x ∈ acc ∨ x ∈ l by
    rcases haux l [] h with hx | hx
    · exact absurd hx (List.not_mem_nil _)
    · exact hx
  intro l
  induction l with
  | nil => intro acc h2; exact Or.inl h2
  | cons y ys ih =>
    intro acc h2
    rw [List.foldl_cons] at h2
    rcases ih _ h2 with hx | hx
    · have hx2 : x ∈ (if acc.contains y = true then acc else acc ++ [y]) := hx
      by_cases hc : acc.contains y = true
      · rw [if_pos hc] at hx2
        exact Or.inl hx2
      · rw [if_neg hc] at hx2
        rcases List.mem_append.1 hx2 with hx3 | hx3
        · exact Or.inl hx3
        · rw [List.mem_singleton] at hx3
          exact Or.inr (by rw [hx3]; exact List.mem_cons_self _ _)
    · exact Or.inr (List.mem_cons_of_mem _ hx)

/-- Sections coming out of segmentation carry no dependencies yet. -/
theorem parseSections_deps_nil (content : String) :
    ∀ s ∈ parseSections content, s.dependencies = [] := by
  intro s hs
  unfold parseSections at hs
  by_cases hempty : (pyFind matchSectionCmd content.toList).isEmpty = true
  · rw [if_pos hempty] at hs
    rw [List.mem_singleton] at hs
    rw [hs]
  · rw [if_neg hempty] at hs
    rw [List.mem_map] at hs
    obtain ⟨p, _, hp⟩ := hs
    rw [← hp]

/-- Claim C7 counterexample: a Document produced by segmentation and then
updated from an external dependency input that names a section as its own
dependency ends up with a Section whose dependencies contain its own id;
the update loop performs no self-loop filtering. -/
theorem dependencies_self_loop_counterexample :
    ∃ s ∈ (analyzeDependencies selfLoopDoc ([("sec_0", ["sec_0"])])).sections,
      s.id ∈ s.dependencies := by decide

/-- Claim C7 amended: the pipeline forwards the external dependency input
verbatim, so no Section depends on its own id provided the external
input itself contains no self-reference. -/
theorem dependencies_no_self_loop_of_clean_input (path content : String)
    (parsed : List (String × List String))
    (hclean : ∀ p ∈ parsed, ¬ p.1 ∈ p.2) :
    ∀ s ∈ (analyzeDependencies (parseDocumentFromContent path content) parsed).sections,
      s.id ∉ s.dependencies := by
  intro s hs
  have hsecs : (parseDocumentFromContent path content).sections =
      parseSections (parseDocumentFromContent path content).content := by
    unfold parseDocumentFromContent
    simp only
  unfold analyzeDependencies at hs
  by_cases hlen : (parseDocumentFromContent path content).sections.length ≤ 1
  · rw [if_pos hlen] at hs
    rw [hsecs] at hs
    rw [parseSections_deps_nil _ s hs]
    exact List.not_mem_nil _
  · rw [if_neg hlen] at hs
    simp only [List.mem_map] at hs
    obtain ⟨s0, hs0, hmk⟩ := hs
    rcases hfind : depDictGet parsed s0.id with _ | ds
    · rw [hfind] at hmk
      rw [← hmk]
      rw [hsecs] at hs0
      rw [parseSections_deps_nil _ s0 hs0]
      exact List.not_mem_nil _
    · rw [hfind] at hmk
      unfold depDictGet at hfind
      rcases hf2 : parsed.find? (fun p => p.1 == s0.id) with _ | entry
      · rw [hf2] at hfind; cases hfind
      · rw [hf2] at hfind
        injection hfind with hds
        have hmem := List.mem_of_find?_eq_some hf2
        have hkey : entry.1 = s0.id := by
          have := List.find?_some hf2
          simpa using this
        have hid : s.id = s0.id := by rw [← hmk]
        have hdeps : s.dependencies = pyDedupStr ds := by rw [← hmk]
        rw [hid, hdeps]
        intro hbad
        have hin : s0.id ∈ ds := pyDedupStr_subset ds s0.id hbad
        have := hclean entry hmem
        rw [hkey, hds] at this
        exact this hin

/-- Witness for the amended claim C7 at a concrete clean input. -/
theorem dependencies_no_self_loop_of_clean_input_witness :
    ((analyzeDependencies selfLoopDoc ([("sec_0", ["sec_1"])])).sections.all
      (fun s => !(s.dependencies.contains s.id))) = true := by
  rw [List.all_eq_true]
  intro s hs
  have h2 := dependencies_no_self_loop_of_clean_input ("main.tex")
    ("\\begin\x7bdocument\x7d\\section\x7bA\x7dx $u$\n\\section\x7bB\x7dy\\end\x7bdocument\x7d")
    ([("sec_0", ["sec_1"])]) (by decide) s hs
  cases hb : s.dependencies.contains s.id with
  | false => rfl
  | true => exact absurd (List.elem_iff.1 hb) h2

theorem spanEq_lt (s pat : List Char) (p : Nat) (hne : pat ≠ [])
    (h : spanEq s p pat = true) : p < s.length := by
  by_contra hge
  push_neg at hge
  have hd : s.drop p = [] := List.drop_eq_nil_of_le hge
  unfold spanEq at h
  rw [hd] at h
  simp only [List.take_nil, beq_iff_eq] at h
  exact hne h.symm

/-- Claim C4 counterexample: on the text with a display block before an
inline formula, the extractor reports the inline formula at offset one,
the offset of its match in the working copy, while the matched inline
span occurs in the original text only at offset eight. -/
theorem extractFormulas_inline_position_counterexample :
    extractFormulas ("$$a+b$$ $x$") =
      [Formula.mk ("a+b") FormulaType.DISPLAY 0, Formula.mk ("x") FormulaType.INLINE 1]
    ∧ (∀ p, spanEq (("$$a+b$$ $x$").toList) p (("$x$").toList) = true ↔ p = 8)
    ∧ (1 : Nat) ≠ 8 := by
  refine ⟨by decide, ?_, by decide⟩
  intro p
  constructor
  · intro h
    have hlen : (("$$a+b$$ $x$").toList).length = 11 := by decide
    have hlt : p < 11 := by
      have := spanEq_lt (("$$a+b$$ $x$").toList) (("$x$").toList) p (by decide) h
      omega
    interval_cases p <;> first | rfl | exact absurd h (by decide)
  · rintro rfl
    decide

theorem pyFindAux_matcher {α : Type} (matcher : List Char → Option (Nat × α)) :
    ∀ (fuel pos : Nat) (s : List Char), ∀ r ∈ pyFindAux matcher fuel pos s,
      pos ≤ r.1 ∧ matcher (s.drop (r.1 - pos)) = some (r.2.1, r.2.2) := by
  intro fuel
  induction fuel with
  | zero => intro pos s r hr; cases hr
  | succ n ih =>
    intro pos s r hr
    cases s with
    | nil => cases hr
    | cons c rest =>
      rw [show pyFindAux matcher (n + 1) pos (c :: rest) =
        (match matcher (c :: rest) with
         | some (used, g) =>
           if used == 0 then pyFindAux matcher n (pos + 1) rest
           else (pos, used, g) :: pyFindAux matcher n (pos + used) ((c :: rest).drop used)
         | none => pyFindAux matcher n (pos + 1) rest) from rfl] at hr
      cases hmc : matcher (c :: rest) with
      | none =>
        rw [hmc] at hr
        have hr2 : r ∈ pyFindAux matcher n (pos + 1) rest := hr
        obtain ⟨h1, h2⟩ := ih (pos + 1) rest r hr2
        refine ⟨by omega, ?_⟩
        have hdrop : rest.drop (r.1 - (pos + 1)) = (c :: rest).drop (r.1 - pos) := by
          have : r.1 - pos = (r.1 - (pos + 1)) + 1 := by omega
          rw [this]
          rfl
        rw [← hdrop]
        exact h2
      | some u =>
        obtain ⟨used, g⟩ := u
        rw [hmc] at hr
        have hr2 : r ∈ (if (used == 0) = true then pyFindAux matcher n (pos + 1) rest
          else (pos, used, g) :: pyFindAux matcher n (pos + used) ((c :: rest).drop used)) := hr
        by_cases hu : (used == 0) = true
        · rw [if_pos hu] at hr2
          obtain ⟨h1, h2⟩ := ih (pos + 1) rest r hr2
          refine ⟨by omega, ?_⟩
          have hdrop : rest.drop (r.1 - (pos + 1)) = (c :: rest).drop (r.1 - pos) := by
            have : r.1 - pos = (r.1 - (pos + 1)) + 1 := by omega
            rw [this]
            rfl
          rw [← hdrop]
          exact h2
        · rw [if_neg hu] at hr2
          rcases List.mem_cons.1 hr2 with hr | hr
          · subst hr
            simp only [Nat.sub_self, List.drop_zero]
            exact ⟨Nat.le_refl _, hmc⟩
          · obtain ⟨h1, h2⟩ := ih (pos + used) ((c :: rest).drop used) r hr
            refine ⟨by omega, ?_⟩
            rw [List.drop_drop] at h2
            have harith : used + (r.1 - (pos + used)) = r.1 - pos := by omega
            rw [harith] at h2
            exact h2

theorem mem_foldl_append {α β : Type} (g : β → List α) (ms : List β) (x : α) :
    ∀ acc : List α, (x ∈ ms.foldl (fun a m => a ++ g m) acc ↔ x ∈ acc ∨ ∃ m ∈ ms, x ∈ g m) := by
  induction ms with
  | nil => intro acc; simp
  | cons m ms ih =>
    intro acc
    rw [List.foldl_cons, ih]
    simp only [List.mem_append, List.mem_cons]
    constructor
    · rintro ((h | h) | ⟨m2, hm2, hx⟩)
      · exact Or.inl h
      · exact Or.inr ⟨m, Or.inl rfl, h⟩
      · exact Or.inr ⟨m2, Or.inr hm2, hx⟩
    · rintro (h | ⟨m2, (hm2 | hm2), hx⟩)
      · exact Or.inl (Or.inl h)
      · subst hm2; exact Or.inl (Or.inr hx)
      · exact Or.inr ⟨m2, hm2, hx⟩

theorem mem_insertByPos (f x : Formula) (l : List Formula) :
    x ∈ insertByPos f l ↔ x = f ∨ x ∈ l := by
  induction l with
  | nil => simp [insertByPos]
  | cons g gs ih =>
    unfold insertByPos
    by_cases hc : g.position ≤ f.position
    · rw [if_pos hc, List.mem_cons, ih, List.mem_cons]
      tauto
    · rw [if_neg hc, List.mem_cons]

theorem mem_stableSortByPos (l : List Formula) (x : Formula) :
    x ∈ stableSortByPos l ↔ x ∈ l := by
  suffices haux : ∀ acc : List Formula,
      (x ∈ l.foldl (fun acc f => insertByPos f acc) acc ↔ x ∈ acc ∨ x ∈ l) by
    rw [stableSortByPos, haux []]
    simp
  induction l with
  | nil => intro acc; simp
  | cons f fs ih =>
    intro acc
    rw [List.foldl_cons, ih]
    rw [mem_insertByPos]
    simp only [List.mem_cons]
    tauto

/-- Claim C4 amended: every display Formula records the start offset of
its match in the original text (a display matcher succeeds there), while
every inline Formula records the start offset of its match in the working
copy from which display spans have been removed. -/
theorem extractFormulas_position_spans (text : String) :
    ∀ f ∈ extractFormulas text,
      (f.formula_type = FormulaType.DISPLAY →
        ∃ m ∈ displayMatchers, ∃ used g,
          m (text.toList.drop f.position) = some (used, g) ∧
          f.content = String.mk (pyStrip g))
      ∧ (f.formula_type = FormulaType.INLINE →
        ∃ used g,
          matchInline ((workingCopy text.toList).drop f.position) = some (used, g) ∧
          f.content = String.mk (pyStrip g)) := by
  intro f hf
  simp only [extractFormulas] at hf
  rw [mem_stableSortByPos, List.mem_append] at hf
  rcases hf with hf | hf
  · rw [mem_foldl_append] at hf
    rcases hf with hf | ⟨m, hm, hf⟩
    · cases hf
    · rw [List.mem_map] at hf
      obtain ⟨r, hr, hmk⟩ := hf
      have hspan := pyFindAux_matcher m text.toList.length 0 text.toList r hr
      constructor
      · intro _
        refine ⟨m, hm, r.2.1, r.2.2, ?_, ?_⟩
        · have h2 := hspan.2
          rw [Nat.sub_zero] at h2
          rw [← hmk]
          exact h2
        · rw [← hmk]
      · intro hbad
        rw [← hmk] at hbad
        cases hbad
  · rw [List.mem_map] at hf
    obtain ⟨r, hr, hmk⟩ := hf
    have hspan := pyFindAux_matcher matchInline (workingCopy text.toList).length 0
      (workingCopy text.toList) r hr
    constructor
    · intro hbad
      rw [← hmk] at hbad
      cases hbad
    · intro _
      refine ⟨r.2.1, r.2.2, ?_, ?_⟩
      · have h2 := hspan.2
        rw [Nat.sub_zero] at h2
        rw [← hmk]
        exact h2
      · rw [← hmk]

/-- Witness for the amended claim C4: the inline formula of the concrete
text is reported at offset one, where its match starts in the working
copy. -/
theorem extractFormulas_position_spans_witness :
    (Formula.mk ("x") FormulaType.INLINE 1 ∈ extractFormulas ("$$a+b$$ $x$"))
    ∧ ((Formula.mk ("x") FormulaType.INLINE 1).formula_type = FormulaType.INLINE →
      ∃ used g,
        matchInline ((workingCopy (("$$a+b$$ $x$").toList)).drop
          (Formula.mk ("x") FormulaType.INLINE 1).position) = some (used, g) ∧
        (Formula.mk ("x") FormulaType.INLINE 1).content = String.mk (pyStrip g)) :=
  ⟨by decide,
   (extractFormulas_position_spans ("$$a+b$$ $x$") (Formula.mk ("x") FormulaType.INLINE 1)
     (by decide)).2⟩

theorem pyFindAux_shift {α : Type} (matcher : List Char → Option (Nat × α)) :
    ∀ (fuel pos : Nat) (s : List Char),
      pyFindAux matcher fuel pos s =
        (pyFindAux matcher fuel 0 s).map (fun r => (r.1 + pos, r.2)) := by
  intro fuel
  induction fuel with
  | zero => intro pos s; rfl
  | succ n ih =>
    intro pos s
    cases s with
    | nil => rfl
    | cons c rest =>
      show (match matcher (c :: rest) with
        | some (used, g) =>
          if used == 0 then pyFindAux matcher n (pos + 1) rest
          else (pos, used, g) :: pyFindAux matcher n (pos + used) ((c :: rest).drop used)
        | none => pyFindAux matcher n (pos + 1) rest) =
        ((match matcher (c :: rest) with
          | some (used, g) =>
            if used == 0 then pyFindAux matcher n (0 + 1) rest
            else (0, used, g) :: pyFindAux matcher n (0 + used) ((c :: rest).drop used)
          | none => pyFindAux matcher n (0 + 1) rest).map
            (fun r : Nat × Nat × α => (r.1 + pos, r.2)))
      cases hmc : matcher (c :: rest) with
      | none =>
        rw [ih (pos + 1) rest, ih (0 + 1) rest, List.map_map]
        refine List.map_congr_left ?_
        intro r _
        show (r.1 + (pos + 1), r.2) = (r.1 + (0 + 1) + pos, r.2)
        rw [Nat.zero_add, Nat.add_assoc, Nat.add_comm 1 pos]
      | some u =>
        obtain ⟨used, g⟩ := u
        cases used with
        | zero =>
          show pyFindAux matcher n (pos + 1) rest =
            (pyFindAux matcher n (0 + 1) rest).map (fun r : Nat × Nat × α => (r.1 + pos, r.2))
          rw [ih (pos + 1) rest, ih (0 + 1) rest, List.map_map]
          refine List.map_congr_left ?_
          intro r _
          show (r.1 + (pos + 1), r.2) = (r.1 + (0 + 1) + pos, r.2)
          rw [Nat.zero_add, Nat.add_assoc, Nat.add_comm 1 pos]
        | succ k =>
          show (pos, k + 1, g) :: pyFindAux matcher n (pos + (k + 1)) ((c :: rest).drop (k + 1)) =
            (((0 : Nat), k + 1, g) ::
              pyFindAux matcher n (0 + (k + 1)) ((c :: rest).drop (k + 1))).map
              (fun r : Nat × Nat × α => (r.1 + pos, r.2))
          rw [List.map_cons]
          rw [ih (pos + (k + 1)) ((c :: rest).drop (k + 1)),
            ih (0 + (k + 1)) ((c :: rest).drop (k + 1)), List.map_map]
          refine congrArg₂ (fun (a : Nat × Nat × α) (b : List (Nat × Nat × α)) => a :: b) ?_ ?_
          · show (pos, k + 1, g) = (0 + pos, k + 1, g)
            rw [Nat.zero_add]
          · refine List.map_congr_left ?_
            intro r _
            show (r.1 + (pos + (k + 1)), r.2) = (r.1 + (0 + (k + 1)) + pos, r.2)
            rw [Nat.zero_add, Nat.add_assoc, Nat.add_comm (k + 1) pos]


theorem resolveAux_cons (pc : Bool) (fs : List (String × String)) (baseDir : String)
    (fuel : Nat) (c : Char) (rest : List Char) :
    resolveAux pc fs baseDir (fuel + 1) (c :: rest) =
      match matchIncludeCmd (c :: rest) with
      | none =>
        (c :: (resolveAux pc fs baseDir fuel rest).1,
         (resolveAux pc fs baseDir fuel rest).2)
      | some (used, (_, fname)) =>
        if used == 0 then
          (c :: (resolveAux pc fs baseDir fuel rest).1,
           (resolveAux pc fs baseDir fuel rest).2)
        else
          match fs.find? (fun q => q.1 == includePath baseDir fname) with
          | none =>
            ((c :: rest).take used ++ (resolveAux pc fs baseDir fuel ((c :: rest).drop used)).1,
             missingFileWarning (includePath baseDir fname) ::
               (resolveAux pc fs baseDir fuel ((c :: rest).drop used)).2)
          | some entry =>
            ((resolveAux pc fs baseDir fuel
                (if pc then entry.2.toList else removeComments entry.2.toList)).1 ++
               (resolveAux pc fs baseDir fuel ((c :: rest).drop used)).1,
             (resolveAux pc fs baseDir fuel
                (if pc then entry.2.toList else removeComments entry.2.toList)).2 ++
               (resolveAux pc fs baseDir fuel ((c :: rest).drop used)).2) := rfl

theorem pyFindAux_cons {α : Type} (matcher : List Char → Option (Nat × α))
    (fuel pos : Nat) (c : Char) (rest : List Char) :
    pyFindAux matcher (fuel + 1) pos (c :: rest) =
      match matcher (c :: rest) with
      | some (used, g) =>
        if used == 0 then pyFindAux matcher fuel (pos + 1) rest
        else (pos, used, g) :: pyFindAux matcher fuel (pos + used) ((c :: rest).drop used)
      | none => pyFindAux matcher fuel (pos + 1) rest := rfl

theorem resolveAux_missing (pc : Bool) (fs : List (String × String)) (baseDir : String) :
    ∀ (fuel : Nat) (s : List Char),
      (∀ r ∈ pyFindAux matchIncludeCmd fuel 0 s,
        fs.find? (fun p => p.1 == includePath baseDir r.2.2.2) = none) →
      resolveAux pc fs baseDir fuel s =
        (s, (pyFindAux matchIncludeCmd fuel 0 s).map
          (fun r => missingFileWarning (includePath baseDir r.2.2.2))) := by
  intro fuel
  induction fuel with
  | zero => intro s hm; rfl
  | succ n ih =>
    intro s hm
    cases s with
    | nil => rfl
    | cons c rest =>
      cases hmc : matchIncludeCmd (c :: rest) with
      | none =>
        have hm2 : ∀ r ∈ pyFindAux matchIncludeCmd n 0 rest,
            fs.find? (fun p => p.1 == includePath baseDir r.2.2.2) = none := by
          intro r hr
          have hmem : (r.1 + (0 + 1), r.2) ∈ pyFindAux matchIncludeCmd (n + 1) 0 (c :: rest) := by
            rw [pyFindAux_cons, hmc, pyFindAux_shift matchIncludeCmd n (0 + 1) rest]
            exact List.mem_map_of_mem _ hr
          exact hm (r.1 + (0 + 1), r.2) hmem
        rw [resolveAux_cons]
        simp only [hmc]
        rw [ih rest hm2, pyFindAux_cons, hmc,
          pyFindAux_shift matchIncludeCmd n (0 + 1) rest, List.map_map]
        rfl
      | some u =>
        obtain ⟨used, g⟩ := u
        obtain ⟨cmd, fname⟩ := g
        cases used with
        | zero =>
          have hm2 : ∀ r ∈ pyFindAux matchIncludeCmd n 0 rest,
              fs.find? (fun p => p.1 == includePath baseDir r.2.2.2) = none := by
            intro r hr
            have hmem : (r.1 + (0 + 1), r.2) ∈
                pyFindAux matchIncludeCmd (n + 1) 0 (c :: rest) := by
              rw [pyFindAux_cons, hmc, pyFindAux_shift matchIncludeCmd n (0 + 1) rest]
              exact List.mem_map_of_mem _ hr
            exact hm (r.1 + (0 + 1), r.2) hmem
          have hres : resolveAux pc fs baseDir (n + 1) (c :: rest) =
              (c :: (resolveAux pc fs baseDir n rest).1,
               (resolveAux pc fs baseDir n rest).2) := by
            rw [resolveAux_cons, hmc]
            rfl
          have hstep : pyFindAux matchIncludeCmd (n + 1) 0 (c :: rest) =
              pyFindAux matchIncludeCmd n (0 + 1) rest := by
            rw [pyFindAux_cons, hmc]
            rfl
          rw [hres, ih rest hm2, hstep,
            pyFindAux_shift matchIncludeCmd n (0 + 1) rest, List.map_map]
          rfl
        | succ k =>
          have hhead : ((0 : Nat), k + 1, (cmd, fname)) ∈
              pyFindAux matchIncludeCmd (n + 1) 0 (c :: rest) := by
            rw [pyFindAux_cons, hmc]
            exact List.mem_cons_self _ _
          have hmiss0 := hm ((0 : Nat), k + 1, (cmd, fname)) hhead
          have hm2 : ∀ r ∈ pyFindAux matchIncludeCmd n 0 ((c :: rest).drop (k + 1)),
              fs.find? (fun p => p.1 == includePath baseDir r.2.2.2) = none := by
            intro r hr
            have hmem : (r.1 + (0 + (k + 1)), r.2) ∈
                pyFindAux matchIncludeCmd (n + 1) 0 (c :: rest) := by
              rw [pyFindAux_cons, hmc]
              refine List.mem_cons_of_mem _ ?_
              rw [pyFindAux_shift matchIncludeCmd n (0 + (k + 1)) ((c :: rest).drop (k + 1))]
              exact List.mem_map_of_mem _ hr
            exact hm (r.1 + (0 + (k + 1)), r.2) hmem
          have hres : resolveAux pc fs baseDir (n + 1) (c :: rest) =
              ((c :: rest).take (k + 1) ++
                 (resolveAux pc fs baseDir n ((c :: rest).drop (k + 1))).1,
               missingFileWarning (includePath baseDir fname) ::
                 (resolveAux pc fs baseDir n ((c :: rest).drop (k + 1))).2) := by
            rw [resolveAux_cons, hmc]
            show (match fs.find? (fun q => q.1 == includePath baseDir fname) with
              | none =>
                ((c :: rest).take (k + 1) ++
                   (resolveAux pc fs baseDir n ((c :: rest).drop (k + 1))).1,
                 missingFileWarning (includePath baseDir fname) ::
                   (resolveAux pc fs baseDir n ((c :: rest).drop (k + 1))).2)
              | some entry =>
                ((resolveAux pc fs baseDir n
                    (if pc then entry.2.toList else removeComments entry.2.toList)).1 ++
                   (resolveAux pc fs baseDir n ((c :: rest).drop (k + 1))).1,
                 (resolveAux pc fs baseDir n
                    (if pc then entry.2.toList else removeComments entry.2.toList)).2 ++
                   (resolveAux pc fs baseDir n ((c :: rest).drop (k + 1))).2)) = _
            rw [hmiss0]
          have hstep : pyFindAux matchIncludeCmd (n + 1) 0 (c :: rest) =
              ((0 : Nat), k + 1, (cmd, fname)) ::
                pyFindAux matchIncludeCmd n (0 + (k + 1)) ((c :: rest).drop (k + 1)) := by
            rw [pyFindAux_cons, hmc]
            rfl
          rw [hres, ih _ hm2, hstep, List.map_cons,
            pyFindAux_shift matchIncludeCmd n (0 + (k + 1)) ((c :: rest).drop (k + 1)),
            List.map_map]
          rw [List.take_append_drop]
          rfl
/-- Claim C8: when every inclusion directive of a text refers to a file
absent from the file system, include resolution returns the text
verbatim, emits one missing-file warning per directive, and returns
normally rather than raising. -/
theorem resolveIncludes_missing_file_verbatim (pc : Bool) (fs : List (String × String))
    (baseDir : String) (fuel : Nat) (content : String)
    (hmiss : ∀ r ∈ pyFindAux matchIncludeCmd fuel 0 content.toList,
      fs.find? (fun p => p.1 == includePath baseDir r.2.2.2) = none) :
    resolveIncludes pc fs baseDir fuel content =
      (content.toList,
       (pyFindAux matchIncludeCmd fuel 0 content.toList).map
         (fun r => missingFileWarning (includePath baseDir r.2.2.2))) :=
  resolveAux_missing pc fs baseDir fuel content.toList hmiss

/-- Witness for claim C8: a text with two directives naming files that
are not in the concrete file system is returned verbatim with exactly the
two warnings. -/
theorem resolveIncludes_missing_file_verbatim_witness :
    resolveIncludes false ([("dir/present.tex", "P")]) ("dir") 37
        ("a \\input\x7bnofile\x7d b \\include\x7balso\x7d c") =
      ((("a \\input\x7bnofile\x7d b \\include\x7balso\x7d c").toList),
       (pyFindAux matchIncludeCmd 37 0 (("a \\input\x7bnofile\x7d b \\include\x7balso\x7d c").toList)).map
         (fun r => missingFileWarning (includePath ("dir") r.2.2.2))) :=
  resolveIncludes_missing_file_verbatim false ([("dir/present.tex", "P")]) ("dir") 37
    ("a \\input\x7bnofile\x7d b \\include\x7balso\x7d c") (by decide)

theorem assocGetD_assocSet (m : List (String × Int)) (k : String) (v : Int)
    (k2 : String) (d : Int) :
    assocGetD (assocSet m k v) k2 d = if k == k2 then v else assocGetD m k2 d := by
  induction m with
  | nil => simp [assocSet, assocGetD]
  | cons p rest ih =>
    obtain ⟨a, b⟩ := p
    by_cases ha : a = k
    · subst ha
      by_cases h2 : a = k2 <;> simp [assocSet, assocGetD, h2]
    · by_cases h2 : a = k2
      · subst h2
        have hk : ¬(k = a) := fun h => ha h.symm
        simp [assocSet, assocGetD, ha, hk]
      · simp [assocSet, assocGetD, ha, h2, ih]

theorem graphGet_graphAppend (g : List (String × List String)) (k v k2 : String) :
    graphGet (graphAppend g k v) k2 =
      if k == k2 then graphGet g k ++ [v] else graphGet g k2 := by
  induction g with
  | nil =>
    by_cases h : k = k2 <;> simp [graphAppend, graphGet, h]
  | cons p rest ih =>
    obtain ⟨a, b⟩ := p
    by_cases ha : a = k
    · subst ha
      by_cases h2 : a = k2 <;> simp [graphAppend, graphGet, h2]
    · by_cases h2 : a = k2
      · subst h2
        have hk : ¬(k = a) := fun h => ha h.symm
        simp [graphAppend, graphGet, ha, hk]
      · simp [graphAppend, graphGet, ha, h2, ih]

theorem assocKeys_assocSet (m : List (String × Int)) (k : String) (v : Int)
    (h : k ∈ assocKeys m) : assocKeys (assocSet m k v) = assocKeys m := by
  induction m with
  | nil => exact absurd h (List.not_mem_nil _)
  | cons p rest ih =>
    obtain ⟨a, b⟩ := p
    by_cases ha : a = k
    · subst ha
      simp [assocSet, assocKeys]
    · have h2 : k ∈ assocKeys rest := by
        rcases List.mem_cons.1 h with h3 | h3
        · exact absurd h3.symm ha
        · exact h3
      show assocKeys (if (a == k) = true then (k, v) :: rest
        else (a, b) :: assocSet rest k v) = assocKeys ((a, b) :: rest)
      rw [if_neg (by simpa using ha)]
      show a :: assocKeys (assocSet rest k v) = a :: assocKeys rest
      rw [ih h2]

theorem any_fst_eq_contains (m : List (String × Int)) (x : String) :
    (m.any (fun p => p.1 == x)) = (assocKeys m).contains x := by
  by_cases h : x ∈ assocKeys m
  · have h1 : m.any (fun p => p.1 == x) = true := by
      rw [List.any_eq_true]
      obtain ⟨p, hp, he⟩ := List.mem_map.1 h
      exact ⟨p, hp, by simpa using he⟩
    have h2 : (assocKeys m).contains x = true := List.elem_iff.2 h
    rw [h1, h2]
  · have h1 : m.any (fun p => p.1 == x) = false := by
      rw [List.any_eq_false]
      intro p hp hbad
      refine h ?_
      have hpx : p.1 = x := by simpa using hbad
      rw [← hpx]
      exact List.mem_map_of_mem _ hp
    have h2 : (assocKeys m).contains x = false := by
      by_contra hb
      rw [Bool.not_eq_false] at hb
      exact h (List.elem_iff.1 hb)
    rw [h1, h2]

theorem initInDegree_keys (secs : List Section) :
    assocKeys (initInDegree secs) = pyDedupStr (ids secs) := by
  suffices haux : ∀ (l : List Section) (acc : List (String × Int)),
      assocKeys (l.foldl (fun m s =>
        if m.any (fun p => p.1 == s.id) then m else m ++ [(s.id, 0)]) acc) =
      (l.map (fun s => s.id)).foldl
        (fun ac x => if ac.contains x then ac else ac ++ [x]) (assocKeys acc) by
    unfold initInDegree pyDedupStr ids
    rw [haux secs []]
    rfl
  intro l
  induction l with
  | nil => intro acc; rfl
  | cons s rest ih =>
    intro acc
    rw [List.foldl_cons, List.map_cons, List.foldl_cons, ih]
    congr 1
    rw [any_fst_eq_contains]
    by_cases hc : (assocKeys acc).contains s.id = true
    · rw [if_pos hc, if_pos hc]
    · rw [if_neg hc, if_neg hc]
      simp [assocKeys]

theorem initInDegree_vals (secs : List Section) :
    ∀ p ∈ initInDegree secs, p.2 = 0 := by
  suffices haux : ∀ (l : List Section) (acc : List (String × Int)),
      (∀ p ∈ acc, p.2 = 0) →
      ∀ p ∈ l.foldl (fun m s =>
        if m.any (fun p => p.1 == s.id) then m else m ++ [(s.id, 0)]) acc, p.2 = 0 by
    exact haux secs [] (by intro p hp; cases hp)
  intro l
  induction l with
  | nil => intro acc hacc; exact hacc
  | cons s rest ih =>
    intro acc hacc
    rw [List.foldl_cons]
    refine ih _ ?_
    by_cases hc : acc.any (fun p => p.1 == s.id) = true
    · rw [if_pos hc]; exact hacc
    · rw [if_neg hc]
      intro p hp
      rcases List.mem_append.1 hp with hp | hp
      · exact hacc p hp
      · rw [List.mem_singleton] at hp
        rw [hp]

theorem assocGetD_zero_of_vals (m : List (String × Int))
    (h : ∀ p ∈ m, p.2 = 0) (k : String) : assocGetD m k 0 = 0 := by
  induction m with
  | nil => rfl
  | cons p rest ih =>
    obtain ⟨a, b⟩ := p
    simp only [assocGetD]
    by_cases ha : (a == k) = true
    · rw [if_pos ha]
      exact h (a, b) (List.mem_cons_self _ _)
    · rw [if_neg ha]
      exact ih (fun q hq => h q (List.mem_cons_of_mem _ hq))

theorem pyDedupStr_of_nodup (l : List String) (h : l.Nodup) : pyDedupStr l = l := by
  suffices haux : ∀ (l : List String) (acc : List String), l.Nodup →
      (∀ x ∈ l, x ∉ acc) →
      l.foldl (fun ac x => if ac.contains x then ac else ac ++ [x]) acc = acc ++ l by
    rw [pyDedupStr, haux l [] h (by intro x _ hx; cases hx)]
    rfl
  intro l
  induction l with
  | nil => intro acc _ _; rw [List.foldl_nil, List.append_nil]
  | cons x rest ih =>
    intro acc hnd hdisj
    rw [List.foldl_cons]
    have hx : ¬ acc.contains x = true := by
      intro hc
      exact hdisj x (List.mem_cons_self _ _) (List.elem_iff.1 hc)
    rw [if_neg hx, ih (acc ++ [x]) (List.Nodup.of_cons hnd) ?_]
    · rw [List.append_assoc]
      rfl
    · intro y hy hmem
      rcases List.mem_append.1 hmem with hm | hm
      · exact hdisj y (List.mem_cons_of_mem _ hy) hm
      · rw [List.mem_singleton] at hm
        subst hm
        exact (List.nodup_cons.1 hnd).1 hy

theorem find?_of_nodup_ids (secs : List Section) (hid : (ids secs).Nodup)
    (s : Section) (hs : s ∈ secs) :
    secs.find? (fun t => t.id == s.id) = some s := by
  induction secs with
  | nil => cases hs
  | cons t rest ih =>
    rcases List.mem_cons.1 hs with hst | hs2
    · subst hst
      simp [List.find?]
    · have hne : ¬ (t.id == s.id) = true := by
        intro hbad
        have : t.id = s.id := by simpa using hbad
        have hmem : s.id ∈ ids rest := List.mem_map_of_mem _ hs2
        rw [← this] at hmem
        exact (List.nodup_cons.1 (by simpa [ids] using hid)).1 hmem
      simp only [List.find?]
      rw [show (t.id == s.id) = false from by simpa using hne]
      exact ih (List.Nodup.of_cons (by simpa [ids] using hid)) hs2

theorem depsOf_eq (secs : List Section) (hid : (ids secs).Nodup)
    (s : Section) (hs : s ∈ secs) : depsOf secs s.id = s.dependencies := by
  unfold depsOf
  rw [find?_of_nodup_ids secs hid s hs]

theorem find?_some_of_mem_ids (secs : List Section) (x : String)
    (hx : x ∈ ids secs) :
    ∃ t ∈ secs, secs.find? (fun s => s.id == x) = some t ∧ t.id = x := by
  induction secs with
  | nil => cases hx
  | cons s rest ih =>
    by_cases hsx : s.id = x
    · refine ⟨s, List.mem_cons_self _ _, ?_, hsx⟩
      simp [List.find?, hsx]
    · have hx2 : x ∈ ids rest := by
        rcases List.mem_map.1 hx with ⟨t, ht, htx⟩
        rcases List.mem_cons.1 ht with h | h
        · exact absurd (by rw [← htx, h]) hsx
        · rw [← htx]
          exact List.mem_map_of_mem _ h
      obtain ⟨t, ht, hf, hid⟩ := ih hx2
      refine ⟨t, List.mem_cons_of_mem _ ht, ?_, hid⟩
      simp only [List.find?]
      rw [show (s.id == x) = false from by simpa using hsx]
      exact hf

theorem secOf_spec (secs : List Section) (x : String) (hx : x ∈ ids secs) :
    secOf secs x ∈ secs ∧ (secOf secs x).id = x ∧
      (secOf secs x).dependencies = depsOf secs x := by
  obtain ⟨t, ht, hf, hid⟩ := find?_some_of_mem_ids secs x hx
  unfold secOf depsOf
  rw [hf]
  exact ⟨ht, hid, rfl⟩

theorem dictLastGet_eq (secs : List Section) (hid : (ids secs).Nodup)
    (x : String) (hx : x ∈ ids secs) :
    dictLastGet secs x = some (secOf secs x) := by
  obtain ⟨hmem, hxid, _⟩ := secOf_spec secs x hx
  unfold dictLastGet
  have hrev : (ids secs.reverse).Nodup := by
    unfold ids
    rw [List.map_reverse]
    exact List.nodup_reverse.2 hid
  have := find?_of_nodup_ids secs.reverse hrev (secOf secs x) (List.mem_reverse.2 hmem)
  rw [hxid] at this
  exact this

theorem filter_zero_keys (m : List (String × Int)) (h : (assocKeys m).Nodup) :
    (m.filter (fun p => p.2 == 0)).map (fun p => p.1) =
      (assocKeys m).filter (fun k => assocGetD m k 0 == 0) := by
  induction m with
  | nil => rfl
  | cons p rest ih =>
    obtain ⟨a, b⟩ := p
    have hnd : (assocKeys rest).Nodup := (List.nodup_cons.1 (by simpa [assocKeys] using h)).2
    have hna : a ∉ assocKeys rest := (List.nodup_cons.1 (by simpa [assocKeys] using h)).1
    have htail : (rest.filter (fun p => p.2 == 0)).map (fun p => p.1) =
        (assocKeys rest).filter (fun k => assocGetD rest k 0 == 0) := ih hnd
    have hcongr : (assocKeys rest).filter
        (fun k => assocGetD ((a, b) :: rest) k 0 == 0) =
        (assocKeys rest).filter (fun k => assocGetD rest k 0 == 0) := by
      refine List.filter_congr ?_
      intro k hk
      have hak : ¬ (a = k) := fun hbad => hna (hbad ▸ hk)
      simp only [assocGetD]
      rw [show (a == k) = false from by simpa using hak]
      simp
    show (((a, b) :: rest).filter (fun p => p.2 == 0)).map (fun p => p.1) =
      (a :: assocKeys rest).filter (fun k => assocGetD ((a, b) :: rest) k 0 == 0)
    by_cases hb : (b == (0 : Int)) = true
    · rw [List.filter_cons_of_pos (by simpa using hb), List.map_cons,
        List.filter_cons_of_pos (by simp [assocGetD, hb]), hcongr, htail]
    · rw [List.filter_cons_of_neg (by simpa using hb),
        List.filter_cons_of_neg (by simp [assocGetD]; simpa using hb), hcongr, htail]

theorem foldDeps_pair (sid : String) (ds : List String) :
    ∀ (g : List (String × List String)) (m : List (String × Int)),
    ds.foldl (fun gm2 dep => (graphAppend gm2.1 dep sid,
      assocSet gm2.2 sid (assocGetD gm2.2 sid 0 + 1))) (g, m) =
    (ds.foldl (fun g2 d => graphAppend g2 d sid) g,
     ds.foldl (fun m2 _ => assocSet m2 sid (assocGetD m2 sid 0 + 1)) m) := by
  induction ds with
  | nil => intro g m; rfl
  | cons d rest ih =>
    intro g m
    rw [List.foldl_cons, List.foldl_cons, List.foldl_cons]
    exact ih _ _

theorem graphGet_foldDeps (sid : String) (ds : List String) (hnd : ds.Nodup) :
    ∀ (g : List (String × List String)) (c : String),
    graphGet (ds.foldl (fun g2 d => graphAppend g2 d sid) g) c =
      graphGet g c ++ (if c ∈ ds then [sid] else []) := by
  induction ds with
  | nil => intro g c; simp
  | cons d rest ih =>
    intro g c
    rw [List.foldl_cons, ih (List.Nodup.of_cons hnd), graphGet_graphAppend]
    by_cases hdc : d = c
    · subst hdc
      rw [if_pos (by simp), if_pos (List.mem_cons_self _ _),
        if_neg (List.nodup_cons.1 hnd).1]
      rw [List.append_nil]
    · rw [if_neg (by simpa using hdc)]
      by_cases hcr : c ∈ rest
      · rw [if_pos hcr, if_pos (List.mem_cons_of_mem _ hcr)]
      · rw [if_neg hcr, if_neg (by
          intro hbad
          rcases List.mem_cons.1 hbad with h | h
          · exact hdc h.symm
          · exact hcr h)]

theorem getD_incFold (sid : String) (ds : List String) :
    ∀ (m : List (String × Int)) (x : String),
    assocGetD (ds.foldl (fun m2 _ => assocSet m2 sid (assocGetD m2 sid 0 + 1)) m) x 0 =
      assocGetD m x 0 + (if sid = x then (ds.length : Int) else 0) := by
  induction ds with
  | nil =>
    intro m x
    by_cases h : sid = x <;> simp [h]
  | cons d rest ih =>
    intro m x
    rw [List.foldl_cons, ih, assocGetD_assocSet]
    by_cases h : sid = x
    · subst h
      rw [if_pos (by simp), if_pos rfl, if_pos rfl]
      simp only [List.length_cons]
      push_cast
      omega
    · rw [if_neg (by simpa using h), if_neg h, if_neg h]

theorem keys_incFold (sid : String) (ds : List String) :
    ∀ (m : List (String × Int)), sid ∈ assocKeys m →
    assocKeys (ds.foldl (fun m2 _ => assocSet m2 sid (assocGetD m2 sid 0 + 1)) m) =
      assocKeys m := by
  induction ds with
  | nil => intro m _; rfl
  | cons d rest ih =>
    intro m hm
    rw [List.foldl_cons]
    have hk := assocKeys_assocSet m sid (assocGetD m sid 0 + 1) hm
    rw [ih _ (by rw [hk]; exact hm), hk]

theorem buildGraph_pair (secs : List Section) :
    ∀ (g : List (String × List String)) (m : List (String × Int)),
    secs.foldl (fun gm s => s.dependencies.foldl (fun gm2 dep =>
      (graphAppend gm2.1 dep s.id,
       assocSet gm2.2 s.id (assocGetD gm2.2 s.id 0 + 1))) gm) (g, m) =
    (secs.foldl (fun g2 s =>
       s.dependencies.foldl (fun g3 d => graphAppend g3 d s.id) g2) g,
     secs.foldl (fun m2 s =>
       s.dependencies.foldl (fun m3 _ =>
         assocSet m3 s.id (assocGetD m3 s.id 0 + 1)) m2) m) := by
  induction secs with
  | nil => intro g m; rfl
  | cons s rest ih =>
    intro g m
    rw [List.foldl_cons, List.foldl_cons, List.foldl_cons, foldDeps_pair]
    exact ih _ _

theorem graphGet_edgeFold (secs : List Section)
    (hnd : ∀ s ∈ secs, s.dependencies.Nodup) :
    ∀ (g : List (String × List String)) (c : String),
    graphGet (secs.foldl (fun g2 s =>
      s.dependencies.foldl (fun g3 d => graphAppend g3 d s.id) g2) g) c =
      graphGet g c ++
        ((secs.filter (fun s => s.dependencies.contains c)).map (fun s => s.id)) := by
  induction secs with
  | nil => intro g c; simp
  | cons s rest ih =>
    intro g c
    rw [List.foldl_cons,
      ih (fun t ht => hnd t (List.mem_cons_of_mem _ ht)) _ c,
      graphGet_foldDeps s.id s.dependencies (hnd s (List.mem_cons_self _ _))]
    by_cases hc : c ∈ s.dependencies
    · rw [if_pos hc, List.filter_cons_of_pos (by simpa using List.elem_iff.2 hc),
        List.map_cons, List.append_assoc]
      rfl
    · rw [if_neg hc, List.filter_cons_of_neg (by
        intro hbad
        exact hc (List.elem_iff.1 (by simpa using hbad))), List.append_nil]

theorem getD_degFold (secs : List Section) :
    ∀ (m : List (String × Int)) (x : String),
    assocGetD (secs.foldl (fun m2 s =>
      s.dependencies.foldl (fun m3 _ =>
        assocSet m3 s.id (assocGetD m3 s.id 0 + 1)) m2) m) x 0 =
      assocGetD m x 0 +
        Int.ofNat (((secs.filter (fun s => s.id == x)).map
          (fun s => s.dependencies.length)).sum) := by
  induction secs with
  | nil => intro m x; simp
  | cons s rest ih =>
    intro m x
    rw [List.foldl_cons, ih, getD_incFold]
    by_cases h : s.id = x
    · rw [if_pos h, List.filter_cons_of_pos (by simpa using h), List.map_cons,
        List.sum_cons]
      push_cast [Int.ofNat_eq_natCast]
      omega
    · rw [if_neg h, List.filter_cons_of_neg (by simpa using h)]
      omega

theorem keys_degFold (secs : List Section) :
    ∀ (m : List (String × Int)), (∀ s ∈ secs, s.id ∈ assocKeys m) →
    assocKeys (secs.foldl (fun m2 s =>
      s.dependencies.foldl (fun m3 _ =>
        assocSet m3 s.id (assocGetD m3 s.id 0 + 1)) m2) m) = assocKeys m := by
  induction secs with
  | nil => intro m _; rfl
  | cons s rest ih =>
    intro m hm
    rw [List.foldl_cons]
    have hk := keys_incFold s.id s.dependencies m (hm s (List.mem_cons_self _ _))
    rw [ih _ (by
      rw [hk]
      intro t ht
      exact hm t (List.mem_cons_of_mem _ ht)), hk]

theorem buildGraph_fst (secs : List Section)
    (hnd : ∀ s ∈ secs, s.dependencies.Nodup) (c : String) :
    graphGet (buildGraph secs).1 c =
      (secs.filter (fun s => s.dependencies.contains c)).map (fun s => s.id) := by
  unfold buildGraph
  rw [buildGraph_pair]
  show graphGet (secs.foldl (fun g2 s =>
    s.dependencies.foldl (fun g3 d => graphAppend g3 d s.id) g2) []) c = _
  rw [graphGet_edgeFold secs hnd]
  rfl

theorem filter_id_eq_of_nodup (secs : List Section) (hid : (ids secs).Nodup)
    (s : Section) (hs : s ∈ secs) :
    secs.filter (fun t => t.id == s.id) = [s] := by
  induction secs with
  | nil => cases hs
  | cons t rest ih =>
    have hid2 : (ids rest).Nodup := List.Nodup.of_cons (by simpa [ids] using hid)
    rcases List.mem_cons.1 hs with hst | hs2
    · subst hst
      rw [List.filter_cons_of_pos (by simp)]
      have hrest : rest.filter (fun t => t.id == s.id) = [] := by
        rw [List.filter_eq_nil_iff]
        intro t ht hbad
        have : t.id = s.id := by simpa using hbad
        have hmem : s.id ∈ ids rest := by
          rw [← this]
          exact List.mem_map_of_mem _ ht
        exact (List.nodup_cons.1 (by simpa [ids] using hid)).1 hmem
      rw [hrest]
    · have hne : ¬ (t.id = s.id) := by
        intro hbad
        have hmem : s.id ∈ ids rest := List.mem_map_of_mem _ hs2
        rw [← hbad] at hmem
        exact (List.nodup_cons.1 (by simpa [ids] using hid)).1 hmem
      rw [List.filter_cons_of_neg (by simpa using hne)]
      exact ih hid2 hs2

theorem buildGraph_snd_getD (secs : List Section) (hid : (ids secs).Nodup)
    (x : String) (hx : x ∈ ids secs) :
    assocGetD (buildGraph secs).2 x 0 = Int.ofNat (depsOf secs x).length := by
  unfold buildGraph
  rw [buildGraph_pair]
  show assocGetD (secs.foldl (fun m2 s =>
    s.dependencies.foldl (fun m3 _ =>
      assocSet m3 s.id (assocGetD m3 s.id 0 + 1)) m2) (initInDegree secs)) x 0 = _
  rw [getD_degFold]
  rw [assocGetD_zero_of_vals _ (initInDegree_vals secs) x]
  obtain ⟨t, ht, htx⟩ := List.mem_map.1 hx
  rw [← htx, filter_id_eq_of_nodup secs hid t ht]
  rw [depsOf_eq secs hid t ht]
  simp

theorem buildGraph_snd_keys (secs : List Section) (hid : (ids secs).Nodup) :
    assocKeys (buildGraph secs).2 = ids secs := by
  unfold buildGraph
  rw [buildGraph_pair]
  show assocKeys (secs.foldl (fun m2 s =>
    s.dependencies.foldl (fun m3 _ =>
      assocSet m3 s.id (assocGetD m3 s.id 0 + 1)) m2) (initInDegree secs)) = _
  have hkeys : assocKeys (initInDegree secs) = ids secs := by
    rw [initInDegree_keys, pyDedupStr_of_nodup _ hid]
  rw [keys_degFold secs (initInDegree secs) (by
    rw [hkeys]
    intro s hs
    exact List.mem_map_of_mem _ hs), hkeys]

theorem kahnVisit_fold_getD (ns : List String) (hnd : ns.Nodup) :
    ∀ (m : List (String × Int)) (q : List String) (x : String),
    assocGetD (ns.foldl kahnVisit (m, q)).1 x 0 =
      assocGetD m x 0 - (if x ∈ ns then 1 else 0) := by
  induction ns with
  | nil =>
    intro m q x
    simp
  | cons n rest ih =>
    intro m q x
    rw [List.foldl_cons]
    have hstep : kahnVisit (m, q) n =
        (assocSet m n (assocGetD m n 0 - 1),
         if (assocGetD m n 0 - 1) == 0 then q ++ [n] else q) := rfl
    rw [hstep, ih (List.Nodup.of_cons hnd), assocGetD_assocSet]
    by_cases hx : n = x
    · subst hx
      rw [if_pos (by simp), if_neg (List.nodup_cons.1 hnd).1,
        if_pos (List.mem_cons_self _ _)]
      omega
    · rw [if_neg (by simpa using hx)]
      by_cases hr : x ∈ rest
      · rw [if_pos hr, if_pos (List.mem_cons_of_mem _ hr)]
      · rw [if_neg hr, if_neg (by
          intro hbad
          rcases List.mem_cons.1 hbad with h | h
          · exact hx h.symm
          · exact hr h)]

theorem kahnVisit_fold_queue (ns : List String) (hnd : ns.Nodup) :
    ∀ (m : List (String × Int)) (q : List String),
    (ns.foldl kahnVisit (m, q)).2 =
      q ++ ns.filter (fun x => assocGetD m x 0 == 1) := by
  induction ns with
  | nil =>
    intro m q
    simp
  | cons n rest ih =>
    intro m q
    rw [List.foldl_cons]
    have hstep : kahnVisit (m, q) n =
        (assocSet m n (assocGetD m n 0 - 1),
         if (assocGetD m n 0 - 1) == 0 then q ++ [n] else q) := rfl
    rw [hstep, ih (List.Nodup.of_cons hnd)]
    have hcongr : rest.filter (fun x => assocGetD (assocSet m n (assocGetD m n 0 - 1)) x 0 == 1) =
        rest.filter (fun x => assocGetD m x 0 == 1) := by
      refine List.filter_congr ?_
      intro x hxr
      have hne : ¬ (n = x) := fun hbad => (List.nodup_cons.1 hnd).1 (hbad ▸ hxr)
      rw [assocGetD_assocSet, if_neg (by simpa using hne)]
    rw [hcongr]
    have hiff : ((assocGetD m n 0 - 1) == (0 : Int)) = (assocGetD m n 0 == (1 : Int)) := by
      by_cases ha : assocGetD m n 0 = 1
      · rw [ha]
        rfl
      · rw [show ((assocGetD m n 0 - 1) == (0 : Int)) = false from by
          simpa using (by omega : ¬(assocGetD m n 0 - 1 = 0))]
        rw [show ((assocGetD m n 0) == (1 : Int)) = false from by simpa using ha]
    by_cases h1 : (assocGetD m n 0 == (1 : Int)) = true
    · rw [hiff, if_pos h1, List.filter_cons, if_pos h1, List.append_assoc]
      rfl
    · rw [hiff, if_neg h1, List.filter_cons, if_neg h1]

theorem inDegMeasure_assocSet (m : List (String × Int)) (k : String) (v : Int) :
    inDegMeasure (assocSet m k v) + (assocGetD m k 0).toNat =
      inDegMeasure m + v.toNat := by
  induction m with
  | nil =>
    simp [assocSet, assocGetD, inDegMeasure]
  | cons p rest ih =>
    obtain ⟨a, b⟩ := p
    by_cases ha : a = k
    · subst ha
      show inDegMeasure (if (a == a) = true then (a, v) :: rest
          else (a, b) :: assocSet rest a v) + _ = _
      rw [if_pos (by simp)]
      show v.toNat + inDegMeasure rest +
        (if (a == a) = true then b else assocGetD rest a 0).toNat = _
      rw [if_pos (by simp)]
      show _ = b.toNat + inDegMeasure rest + v.toNat
      omega
    · show inDegMeasure (if (a == k) = true then (k, v) :: rest
          else (a, b) :: assocSet rest k v) + _ = _
      rw [if_neg (by simpa using ha)]
      show b.toNat + inDegMeasure (assocSet rest k v) +
        (if (a == k) = true then b else assocGetD rest k 0).toNat = _
      rw [if_neg (by simpa using ha)]
      show _ = b.toNat + inDegMeasure rest + v.toNat
      omega

theorem kahnVisit_measure (st : List (String × Int) × List String) (nb : String) :
    inDegMeasure (kahnVisit st nb).1 + (kahnVisit st nb).2.length ≤
      inDegMeasure st.1 + st.2.length := by
  obtain ⟨m, q⟩ := st
  show inDegMeasure (kahnVisit (m, q) nb).1 + (kahnVisit (m, q) nb).2.length ≤
    inDegMeasure m + q.length
  have hstep : kahnVisit (m, q) nb =
      (assocSet m nb (assocGetD m nb 0 - 1),
       if (assocGetD m nb 0 - 1) == 0 then q ++ [nb] else q) := rfl
  rw [hstep]
  have hm1 := inDegMeasure_assocSet m nb (assocGetD m nb 0 - 1)
  by_cases h0 : ((assocGetD m nb 0 - 1) == (0 : Int)) = true
  · have ha : assocGetD m nb 0 = 1 := by
      have := (beq_iff_eq).1 h0
      omega
    rw [if_pos h0]
    show inDegMeasure (assocSet m nb (assocGetD m nb 0 - 1)) + (q ++ [nb]).length ≤ _
    simp only [List.length_append, List.length_cons, List.length_nil]
    omega
  · rw [if_neg h0]
    have ha : ¬ (assocGetD m nb 0 - 1 = 0) := by
      intro hbad
      exact h0 ((beq_iff_eq).2 hbad)
    show inDegMeasure (assocSet m nb (assocGetD m nb 0 - 1)) + q.length ≤ _
    omega

theorem kahnVisit_fold_measure (ns : List String) :
    ∀ (st : List (String × Int) × List String),
    inDegMeasure (ns.foldl kahnVisit st).1 + (ns.foldl kahnVisit st).2.length ≤
      inDegMeasure st.1 + st.2.length := by
  induction ns with
  | nil => intro st; exact Nat.le_refl _
  | cons n rest ih =>
    intro st
    rw [List.foldl_cons]
    exact Nat.le_trans (ih (kahnVisit st n)) (kahnVisit_measure st n)

theorem kahnAux_queue_empty (graph : List (String × List String)) :
    ∀ (fuel : Nat) (inDeg : List (String × Int)) (queue sorted : List String),
    queue.length + inDegMeasure inDeg + 1 ≤ fuel →
    (kahnAux graph fuel inDeg queue sorted).2.1 = [] := by
  intro fuel
  induction fuel with
  | zero =>
    intro inDeg queue sorted h
    exact absurd h (by omega)
  | succ n ih =>
    intro inDeg queue sorted h
    cases queue with
    | nil => rfl
    | cons c rest =>
      show (kahnAux graph n ((graphGet graph c).foldl kahnVisit (inDeg, rest)).1
        ((graphGet graph c).foldl kahnVisit (inDeg, rest)).2 (sorted ++ [c])).2.1 = []
      refine ih _ _ _ ?_
      have hb : inDegMeasure ((graphGet graph c).foldl kahnVisit (inDeg, rest)).1 +
          ((graphGet graph c).foldl kahnVisit (inDeg, rest)).2.length ≤
          inDegMeasure inDeg + rest.length :=
        kahnVisit_fold_measure (graphGet graph c) (inDeg, rest)
      simp only [List.length_cons] at h
      omega

theorem idxIn_append_of_mem {α : Type} [DecidableEq α] (l l2 : List α) (a : α)
    (h : a ∈ l) : idxIn (l ++ l2) a = idxIn l a := by
  induction l with
  | nil => cases h
  | cons x rest ih =>
    by_cases hx : x = a
    · simp [idxIn, hx]
    · rcases List.mem_cons.1 h with h2 | h2
      · exact absurd h2.symm hx
      · simp [idxIn, hx, ih h2]

theorem idxIn_append_self {α : Type} [DecidableEq α] (l : List α) (c : α)
    (h : c ∉ l) : idxIn (l ++ [c]) c = l.length := by
  induction l with
  | nil => simp [idxIn]
  | cons x rest ih =>
    have hx : ¬ (x = c) := fun hbad => h (hbad ▸ List.mem_cons_self _ _)
    simp [idxIn, hx, ih (fun hbad => h (List.mem_cons_of_mem _ hbad))]

theorem idxIn_lt_length {α : Type} [DecidableEq α] (l : List α) (a : α)
    (h : a ∈ l) : idxIn l a < l.length := by
  induction l with
  | nil => cases h
  | cons x rest ih =>
    by_cases hx : x = a
    · simp [idxIn, hx]
    · rcases List.mem_cons.1 h with h2 | h2
      · exact absurd h2.symm hx
      · simp only [idxIn, if_neg hx, List.length_cons]
        exact Nat.succ_lt_succ (ih h2)

theorem length_one_unique {α : Type} (l : List α) (hlen : l.length = 1)
    (a b : α) (ha : a ∈ l) (hb : b ∈ l) : a = b := by
  cases l with
  | nil => cases ha
  | cons x rest =>
    cases rest with
    | nil =>
      rw [List.mem_singleton] at ha hb
      rw [ha, hb]
    | cons y rest2 => simp at hlen

theorem nodup_all_eq_singleton {α : Type} (l : List α) (c : α) (hnd : l.Nodup)
    (hall : ∀ d ∈ l, d = c) (hmem : c ∈ l) : l = [c] := by
  cases l with
  | nil => cases hmem
  | cons x rest =>
    have hx : x = c := hall x (List.mem_cons_self _ _)
    subst hx
    cases rest with
    | nil => rfl
    | cons y rest2 =>
      have hy : y = x := hall y (List.mem_cons_of_mem _ (List.mem_cons_self _ _))
      exact absurd (hy ▸ List.mem_cons_self y rest2 : x ∈ y :: rest2)
        (List.nodup_cons.1 hnd).1

theorem contains_iff (l : List String) (a : String) : l.contains a = true ↔ a ∈ l :=
  List.elem_iff

theorem contains_eq_false (l : List String) (a : String) (h : a ∉ l) :
    l.contains a = false := by
  by_contra hb
  rw [Bool.not_eq_false] at hb
  exact h ((contains_iff _ _).1 hb)

theorem contains_append_single (sorted : List String) (c d : String) :
    ((sorted ++ [c]).contains d) = (sorted.contains d || d == c) := by
  by_cases h1 : d ∈ sorted
  · rw [(contains_iff _ _).2 (List.mem_append_left _ h1), (contains_iff _ _).2 h1]
    rfl
  · by_cases h2 : d = c
    · rw [(contains_iff _ _).2 (List.mem_append_right _ (by rw [h2]; exact List.mem_singleton.2 rfl))]
      rw [contains_eq_false _ _ h1, show (d == c) = true from by simpa using h2]
      rfl
    · rw [contains_eq_false _ _ (by
        intro hbad
        rcases List.mem_append.1 hbad with hb | hb
        · exact h1 hb
        · exact h2 (List.mem_singleton.1 hb))]
      rw [contains_eq_false _ _ h1, show (d == c) = false from by simpa using h2]
      rfl

theorem count_remaining_step (sorted : List String) (c : String) (hcS : c ∉ sorted) :
    ∀ (l : List String), l.Nodup →
    ((l.filter (fun d => !((sorted ++ [c]).contains d))).length) +
      (if c ∈ l then 1 else 0) =
    (l.filter (fun d => !(sorted.contains d))).length := by
  intro l
  induction l with
  | nil => intro _; simp
  | cons d tl ih =>
    intro hnd
    have htl := ih (List.Nodup.of_cons hnd)
    have hdtl : d ∉ tl := (List.nodup_cons.1 hnd).1
    rw [List.filter_cons, List.filter_cons]
    by_cases hdc : d = c
    · have hctl : c ∉ tl := by rw [← hdc]; exact hdtl
      have hcons1 : (!((sorted ++ [c]).contains d)) = false := by
        rw [contains_append_single, show (d == c) = true from by simpa using hdc]
        simp
      have hcons2 : (!(sorted.contains d)) = true := by
        rw [contains_eq_false sorted d (by rw [hdc]; exact hcS)]
        rfl
      rw [hcons1, hcons2, if_neg (by simp), if_pos rfl,
        if_pos (show c ∈ d :: tl by rw [hdc]; exact List.mem_cons_self _ _)]
      have hcongr : tl.filter (fun e => !((sorted ++ [c]).contains e)) =
          tl.filter (fun e => !(sorted.contains e)) := by
        refine List.filter_congr ?_
        intro e he
        have hec : ¬ (e = c) := fun hbad => hctl (hbad ▸ he)
        rw [contains_append_single, show (e == c) = false from by simpa using hec,
          Bool.or_false]
      rw [hcongr]
      simp only [List.length_cons]
    · have hcmem : (c ∈ d :: tl) ↔ (c ∈ tl) := by
        constructor
        · intro hb
          rcases List.mem_cons.1 hb with hb2 | hb2
          · exact absurd hb2.symm hdc
          · exact hb2
        · exact List.mem_cons_of_mem _
      have hcond : (!((sorted ++ [c]).contains d)) = (!(sorted.contains d)) := by
        rw [contains_append_single, show (d == c) = false from by simpa using hdc,
          Bool.or_false]
      rw [hcond]
      by_cases hds : (!(sorted.contains d)) = true
      · rw [if_pos hds, if_pos hds]
        simp only [List.length_cons]
        by_cases hc2 : c ∈ tl
        · rw [if_pos (hcmem.2 hc2)]
          rw [if_pos hc2] at htl
          omega
        · rw [if_neg (fun hb => hc2 (hcmem.1 hb))]
          rw [if_neg hc2] at htl
          omega
      · rw [if_neg hds, if_neg hds]
        by_cases hc2 : c ∈ tl
        · rw [if_pos (hcmem.2 hc2)]
          rw [if_pos hc2] at htl
          omega
        · rw [if_neg (fun hb => hc2 (hcmem.1 hb))]
          rw [if_neg hc2] at htl
          omega

theorem depsOf_nodup (secs : List Section)
    (hnd : ∀ s ∈ secs, s.dependencies.Nodup) (x : String) :
    (depsOf secs x).Nodup := by
  unfold depsOf
  cases hf : secs.find? (fun s => s.id == x) with
  | none => exact List.nodup_nil
  | some s => exact hnd s (List.mem_of_find?_eq_some hf)

theorem kinv_step (secs : List Section) (hid : (ids secs).Nodup)
    (hnd : ∀ s ∈ secs, s.dependencies.Nodup)
    (inDeg : List (String × Int)) (c : String) (rest sorted : List String)
    (inv : KInv secs inDeg (c :: rest) sorted) :
    KInv secs ((graphGet (buildGraph secs).1 c).foldl kahnVisit (inDeg, rest)).1
      ((graphGet (buildGraph secs).1 c).foldl kahnVisit (inDeg, rest)).2
      (sorted ++ [c]) := by
  obtain ⟨hnd0, hsub0, hdeg0, hmem0, hord0⟩ := inv
  have hG := buildGraph_fst secs hnd c
  generalize hginst : graphGet (buildGraph secs).1 c = ns
  rw [hginst] at hG
  have hns_nd : ns.Nodup := by
    rw [hG]
    exact List.Nodup.sublist ((List.filter_sublist _).map _) hid
  have hns_iff : ∀ x, x ∈ ns ↔ (x ∈ ids secs ∧ c ∈ depsOf secs x) := by
    intro x
    rw [hG]
    constructor
    · intro hx
      obtain ⟨s, hsf, hsid⟩ := List.mem_map.1 hx
      obtain ⟨hs, hcont⟩ := List.mem_filter.1 hsf
      subst hsid
      refine ⟨List.mem_map_of_mem _ hs, ?_⟩
      rw [depsOf_eq secs hid s hs]
      exact (contains_iff _ _).1 (by simpa using hcont)
    · rintro ⟨hxids, hcdep⟩
      obtain ⟨s, hs, hsid⟩ := List.mem_map.1 hxids
      refine List.mem_map.2 ⟨s, List.mem_filter.2 ⟨hs, ?_⟩, hsid⟩
      rw [← hsid, depsOf_eq secs hid s hs] at hcdep
      simpa using (contains_iff _ _).2 hcdep
  have hnodup_parts := List.nodup_append.1 hnd0
  have hSnd : sorted.Nodup := hnodup_parts.1
  have hcS : c ∉ sorted := by
    intro hb
    exact hnodup_parts.2.2 hb (List.mem_cons_self _ _)
  have hcrest : c ∉ rest := (List.nodup_cons.1 hnodup_parts.2.1).1
  have hcboth := (hmem0 c).1 (List.mem_append_right _ (List.mem_cons_self _ _))
  have hcid : c ∈ ids secs := hcboth.1
  have hcdeps : ∀ d ∈ depsOf secs c, d ∈ sorted := hcboth.2
  have hget : ∀ x, assocGetD ((ns.foldl kahnVisit (inDeg, rest)).1) x 0 =
      assocGetD inDeg x 0 - (if x ∈ ns then 1 else 0) :=
    kahnVisit_fold_getD ns hns_nd inDeg rest
  have hqueue : (ns.foldl kahnVisit (inDeg, rest)).2 =
      rest ++ ns.filter (fun x => assocGetD inDeg x 0 == 1) :=
    kahnVisit_fold_queue ns hns_nd inDeg rest
  have hfresh : ∀ x ∈ ns, x ∉ sorted ∧ ¬(x = c) ∧ x ∉ rest := by
    intro x hx
    have hcdx : c ∈ depsOf secs x := ((hns_iff x).1 hx).2
    refine ⟨?_, ?_, ?_⟩
    · intro hxS
      exact hcS ((hord0 x hxS c hcdx).1)
    · intro hxc
      rw [hxc] at hcdx
      exact hcS (hcdeps c hcdx)
    · intro hxR
      have hm := (hmem0 x).1 (List.mem_append_right _ (List.mem_cons_of_mem _ hxR))
      exact hcS (hm.2 c hcdx)
  have hpush_nd : (ns.filter (fun x => assocGetD inDeg x 0 == 1)).Nodup :=
    List.Nodup.sublist (List.filter_sublist _) hns_nd
  refine ⟨?_, ?_, ?_, ?_, ?_⟩
  · -- nodup
    rw [hqueue]
    rw [show (sorted ++ [c]) ++ (rest ++ ns.filter (fun x => assocGetD inDeg x 0 == 1)) =
        (sorted ++ c :: rest) ++ ns.filter (fun x => assocGetD inDeg x 0 == 1) from by simp]
    refine List.nodup_append.2 ⟨hnd0, hpush_nd, ?_⟩
    intro a ha hap
    have han : a ∈ ns := (List.mem_filter.1 hap).1
    obtain ⟨h1, h2, h3⟩ := hfresh a han
    rcases List.mem_append.1 ha with hb | hb
    · exact h1 hb
    · rcases List.mem_cons.1 hb with hb2 | hb2
      · exact h2 hb2
      · exact h3 hb2
  · -- subset of ids
    intro x hx
    rw [hqueue] at hx
    rcases List.mem_append.1 hx with hx1 | hx2
    · rcases List.mem_append.1 hx1 with hxs | hxc
      · exact hsub0 x (List.mem_append_left _ hxs)
      · rw [List.mem_singleton] at hxc
        subst hxc
        exact hcid
    · rcases List.mem_append.1 hx2 with hxr | hxp
      · exact hsub0 x (List.mem_append_right _ (List.mem_cons_of_mem _ hxr))
      · exact ((hns_iff x).1 (List.mem_filter.1 hxp).1).1
  · -- degree count
    intro x hxids
    rw [hget x, hdeg0 x hxids]
    have hcnt := count_remaining_step sorted c hcS (depsOf secs x)
      (depsOf_nodup secs hnd x)
    have hmemiff : (x ∈ ns) ↔ (c ∈ depsOf secs x) :=
      ⟨fun h => ((hns_iff x).1 h).2, fun h => (hns_iff x).2 ⟨hxids, h⟩⟩
    by_cases hcx : c ∈ depsOf secs x
    · rw [if_pos (hmemiff.2 hcx)]
      rw [if_pos hcx] at hcnt
      simp only [Int.ofNat_eq_natCast]
      omega
    · rw [if_neg (fun hb => hcx (hmemiff.1 hb))]
      rw [if_neg hcx] at hcnt
      simp only [Int.ofNat_eq_natCast]
      omega
  · -- membership characterization
    intro x
    rw [hqueue]
    constructor
    · intro hx
      rcases List.mem_append.1 hx with hx1 | hx2
      · rcases List.mem_append.1 hx1 with hxs | hxc
        · have hxm := (hmem0 x).1 (List.mem_append_left _ hxs)
          exact ⟨hxm.1, fun d hd => List.mem_append_left _ (hxm.2 d hd)⟩
        · rw [List.mem_singleton] at hxc
          subst hxc
          exact ⟨hcid, fun d hd => List.mem_append_left _ (hcdeps d hd)⟩
      · rcases List.mem_append.1 hx2 with hxr | hxp
        · have hxm := (hmem0 x).1
            (List.mem_append_right _ (List.mem_cons_of_mem _ hxr))
          exact ⟨hxm.1, fun d hd => List.mem_append_left _ (hxm.2 d hd)⟩
        · obtain ⟨hxn, hxv⟩ := List.mem_filter.1 hxp
          have hxone : assocGetD inDeg x 0 = 1 := by simpa using hxv
          have hxids := ((hns_iff x).1 hxn).1
          have hcdx := ((hns_iff x).1 hxn).2
          refine ⟨hxids, ?_⟩
          have hcount := hdeg0 x hxids
          rw [hxone] at hcount
          have hlen : ((depsOf secs x).filter
              (fun d => !(sorted.contains d))).length = 1 := by
            simp only [Int.ofNat_eq_natCast] at hcount
            omega
          intro d hd
          by_cases hdS : d ∈ sorted
          · exact List.mem_append_left _ hdS
          · have hdf : d ∈ (depsOf secs x).filter (fun e => !(sorted.contains e)) :=
              List.mem_filter.2 ⟨hd, by rw [contains_eq_false _ _ hdS]; rfl⟩
            have hcf : c ∈ (depsOf secs x).filter (fun e => !(sorted.contains e)) :=
              List.mem_filter.2 ⟨hcdx, by rw [contains_eq_false _ _ hcS]; rfl⟩
            have hdc := length_one_unique _ hlen d c hdf hcf
            rw [hdc]
            exact List.mem_append_right _ (List.mem_singleton.2 rfl)
    · rintro ⟨hxids, hdeps⟩
      by_cases hcx : c ∈ depsOf secs x
      · have hxn : x ∈ ns := (hns_iff x).2 ⟨hxids, hcx⟩
        have hcount := hdeg0 x hxids
        have hfeq : (depsOf secs x).filter (fun e => !(sorted.contains e)) = [c] := by
          refine nodup_all_eq_singleton _ c ?_ ?_ ?_
          · exact List.Nodup.sublist (List.filter_sublist _) (depsOf_nodup secs hnd x)
          · intro d hdf
            obtain ⟨hd, hdS⟩ := List.mem_filter.1 hdf
            have hdS2 : d ∉ sorted := by
              intro hb
              rw [(contains_iff _ _).2 hb] at hdS
              simp at hdS
            rcases List.mem_append.1 (hdeps d hd) with hb | hb
            · exact absurd hb hdS2
            · exact List.mem_singleton.1 hb
          · exact List.mem_filter.2 ⟨hcx, by rw [contains_eq_false _ _ hcS]; rfl⟩
        rw [hfeq] at hcount
        have hone : assocGetD inDeg x 0 = 1 := by
          rw [hcount]
          rfl
        refine List.mem_append_right _ (List.mem_append_right _ ?_)
        refine List.mem_filter.2 ⟨hxn, ?_⟩
        rw [hone]
        rfl
      · have hdS : ∀ d ∈ depsOf secs x, d ∈ sorted := by
          intro d hd
          rcases List.mem_append.1 (hdeps d hd) with hb | hb
          · exact hb
          · have hdc := List.mem_singleton.1 hb
            rw [hdc] at hd
            exact absurd hd hcx
        have hold := (hmem0 x).2 ⟨hxids, hdS⟩
        rcases List.mem_append.1 hold with hb | hb
        · exact List.mem_append_left _ (List.mem_append_left _ hb)
        · rcases List.mem_cons.1 hb with hb2 | hb2
          · subst hb2
            exact List.mem_append_left _
              (List.mem_append_right _ (List.mem_singleton.2 rfl))
          · exact List.mem_append_right _ (List.mem_append_left _ hb2)
  · -- order
    intro x hx d hd
    rcases List.mem_append.1 hx with hxs | hxc
    · obtain ⟨hdS, hidx⟩ := hord0 x hxs d hd
      refine ⟨List.mem_append_left _ hdS, ?_⟩
      rw [idxIn_append_of_mem _ _ _ hdS, idxIn_append_of_mem _ _ _ hxs]
      exact hidx
    · rw [List.mem_singleton] at hxc
      subst hxc
      have hdS := hcdeps d hd
      refine ⟨List.mem_append_left _ hdS, ?_⟩
      rw [idxIn_append_of_mem _ _ _ hdS, idxIn_append_self _ _ hcS]
      exact idxIn_lt_length _ _ hdS

theorem kinv_run (secs : List Section) (hid : (ids secs).Nodup)
    (hnd : ∀ s ∈ secs, s.dependencies.Nodup) :
    ∀ (fuel : Nat) (inDeg : List (String × Int)) (queue sorted : List String),
    KInv secs inDeg queue sorted →
    KInv secs (kahnAux (buildGraph secs).1 fuel inDeg queue sorted).1
      (kahnAux (buildGraph secs).1 fuel inDeg queue sorted).2.1
      (kahnAux (buildGraph secs).1 fuel inDeg queue sorted).2.2 := by
  intro fuel
  induction fuel with
  | zero => intro inDeg queue sorted inv; exact inv
  | succ n ih =>
    intro inDeg queue sorted inv
    cases queue with
    | nil => exact inv
    | cons c rest =>
      exact ih _ _ _ (kinv_step secs hid hnd inDeg c rest sorted inv)

theorem kinv_init (secs : List Section) (hid : (ids secs).Nodup)
    (hnd : ∀ s ∈ secs, s.dependencies.Nodup) :
    KInv secs (buildGraph secs).2
      (((buildGraph secs).2.filter (fun p => p.2 == 0)).map (fun p => p.1)) [] := by
  have hkeys : assocKeys (buildGraph secs).2 = ids secs := buildGraph_snd_keys secs hid
  have hq : ((buildGraph secs).2.filter (fun p => p.2 == 0)).map (fun p => p.1) =
      (ids secs).filter (fun k => assocGetD (buildGraph secs).2 k 0 == 0) := by
    rw [filter_zero_keys _ (by rw [hkeys]; exact hid), hkeys]
  have hfull : ∀ x, (depsOf secs x).filter
      (fun d => !(([] : List String).contains d)) = depsOf secs x :=
    fun x => List.filter_eq_self.2 (by intro a _; rfl)
  refine ⟨?_, ?_, ?_, ?_, ?_⟩
  · rw [List.nil_append, hq]
    exact List.Nodup.sublist (List.filter_sublist _) hid
  · intro x hx
    rw [List.nil_append, hq] at hx
    exact List.mem_of_mem_filter hx
  · intro x hxids
    rw [buildGraph_snd_getD secs hid x hxids, hfull]
  · intro x
    rw [List.nil_append, hq]
    constructor
    · intro hx
      have hx1 := List.mem_of_mem_filter hx
      have hx2 := (List.mem_filter.1 hx).2
      refine ⟨hx1, ?_⟩
      have hz : assocGetD (buildGraph secs).2 x 0 = 0 := by simpa using hx2
      rw [buildGraph_snd_getD secs hid x hx1] at hz
      have hlen : (depsOf secs x).length = 0 := by
        simp only [Int.ofNat_eq_natCast] at hz
        omega
      have hempty := List.length_eq_zero.1 hlen
      intro d hd
      rw [hempty] at hd
      cases hd
    · rintro ⟨hxids, hdeps⟩
      have hempty : depsOf secs x = [] := by
        cases hdep : depsOf secs x with
        | nil => rfl
        | cons a l =>
          have := hdeps a (by rw [hdep]; exact List.mem_cons_self _ _)
          cases this
      refine List.mem_filter.2 ⟨hxids, ?_⟩
      rw [buildGraph_snd_getD secs hid x hxids, hempty]
      rfl
  · intro x hx
    cases hx

theorem topologicalSort_eq (doc : Document) :
    topologicalSort doc =
      (if ((kahnRun doc.sections).2.2.length != doc.sections.length) = true
       then (doc.sections, true)
       else ((kahnRun doc.sections).2.2.filterMap (fun i => dictLastGet doc.sections i),
             false)) := rfl

theorem kahnRun_final (secs : List Section) (hid : (ids secs).Nodup)
    (hnd : ∀ s ∈ secs, s.dependencies.Nodup) :
    (kahnRun secs).2.1 = [] ∧
    KInv secs (kahnRun secs).1 (kahnRun secs).2.1 (kahnRun secs).2.2 := by
  constructor
  · exact kahnAux_queue_empty (buildGraph secs).1 _ _ _ _ (Nat.le_refl _)
  · exact kinv_run secs hid hnd _ _ _ _ (kinv_init secs hid hnd)

theorem filterMap_eq_map_of {α β : Type} (f : α → Option β) (g : α → β) :
    ∀ (l : List α), (∀ x ∈ l, f x = some (g x)) → l.filterMap f = l.map g := by
  intro l
  induction l with
  | nil => intro _; rfl
  | cons x rest ih =>
    intro h
    rw [List.filterMap_cons, h x (List.mem_cons_self _ _), List.map_cons,
      ih (fun y hy => h y (List.mem_cons_of_mem _ hy))]

theorem idxIn_map_of_inj {α β : Type} [DecidableEq α] [DecidableEq β]
    (g : α → β) : ∀ (l : List α) (x : α), x ∈ l →
    (∀ a ∈ l, g a = g x → a = x) →
    idxIn (l.map g) (g x) = idxIn l x := by
  intro l
  induction l with
  | nil => intro x hx; cases hx
  | cons h t ih =>
    intro x hx hinj
    by_cases hhx : h = x
    · subst hhx
      simp [idxIn]
    · have hgne : ¬ (g h = g x) := fun hbad =>
        hhx (hinj h (List.mem_cons_self _ _) hbad)
      have hx2 : x ∈ t := by
        rcases List.mem_cons.1 hx with h2 | h2
        · exact absurd h2.symm hhx
        · exact h2
      simp only [List.map_cons, idxIn, if_neg hhx, if_neg hgne]
      rw [ih x hx2 (fun a ha hga => hinj a (List.mem_cons_of_mem _ ha) hga)]

theorem length_lt_of_missing (M ids0 : List String) (hMnd : M.Nodup)
    (hsub : ∀ y ∈ M, y ∈ ids0) (x : String) (hx : x ∈ ids0) (hxM : x ∉ M) :
    M.length < ids0.length := by
  have hsub2 : M ⊆ ids0.erase x := by
    intro y hy
    have hyx : y ≠ x := fun h => hxM (h ▸ hy)
    exact (List.mem_erase_of_ne hyx).2 (hsub y hy)
  have hle := (hMnd.subperm hsub2).length_le
  rw [List.length_erase_of_mem hx] at hle
  have hpos : 0 < ids0.length := List.length_pos_of_mem hx
  omega

/-- Claim C1: for a Document with distinct section ids whose dependency
relation refers only to present ids and is acyclic (witnessed by a rank
that strictly drops along every dependency edge), the topological sort
returns without a cycle warning, and every Section of the output appears
at an index strictly greater than the index of each Section named in its
dependencies. -/
theorem topologicalSort_acyclic_respects_dependencies (doc : Document)
    (hid : (ids doc.sections).Nodup)
    (hnd : ∀ s ∈ doc.sections, s.dependencies.Nodup)
    (hsub : ∀ s ∈ doc.sections, ∀ d ∈ s.dependencies, d ∈ ids doc.sections)
    (r : String → Nat)
    (hr : ∀ s ∈ doc.sections, ∀ d ∈ s.dependencies, r d < r s.id) :
    (topologicalSort doc).2 = false ∧
    ∀ s1 ∈ (topologicalSort doc).1, ∀ d ∈ s1.dependencies,
      ∃ s2 ∈ (topologicalSort doc).1, s2.id = d ∧
        idxIn (topologicalSort doc).1 s2 < idxIn (topologicalSort doc).1 s1 := by
  obtain ⟨hqE, hInv⟩ := kahnRun_final doc.sections hid hnd
  have hMnd : (kahnRun doc.sections).2.2.Nodup := by
    have := hInv.nd
    rw [hqE, List.append_nil] at this
    exact this
  have hMsub : ∀ y ∈ (kahnRun doc.sections).2.2, y ∈ ids doc.sections := by
    intro y hy
    exact hInv.sub y (by rw [hqE, List.append_nil]; exact hy)
  have hMmem : ∀ x, x ∈ (kahnRun doc.sections).2.2 ↔
      (x ∈ ids doc.sections ∧
        ∀ d ∈ depsOf doc.sections x, d ∈ (kahnRun doc.sections).2.2) := by
    intro x
    have := hInv.mem x
    rw [hqE, List.append_nil] at this
    exact this
  have hMord := hInv.ord
  have hcomp : ∀ x ∈ ids doc.sections, x ∈ (kahnRun doc.sections).2.2 := by
    have hall : ∀ (n : Nat) (x : String), x ∈ ids doc.sections → r x < n →
        x ∈ (kahnRun doc.sections).2.2 := by
      intro n
      induction n with
      | zero => intro x _ hlt; omega
      | succ k ih =>
        intro x hx hrx
        have hdeps : ∀ d ∈ depsOf doc.sections x, d ∈ (kahnRun doc.sections).2.2 := by
          intro d hd
          obtain ⟨s, hs, hsid⟩ := List.mem_map.1 hx
          rw [← hsid, depsOf_eq _ hid s hs] at hd
          have hdid : d ∈ ids doc.sections := hsub s hs d hd
          have hdr : r d < r x := by
            rw [← hsid]
            exact hr s hs d hd
          exact ih d hdid (by omega)
        exact (hMmem x).2 ⟨hx, hdeps⟩
    exact fun x hx => hall (r x + 1) x hx (by omega)
  have hlen : (kahnRun doc.sections).2.2.length = doc.sections.length := by
    have h1 : (kahnRun doc.sections).2.2.length ≤ (ids doc.sections).length :=
      (hMnd.subperm hMsub).length_le
    have h2 : (ids doc.sections).length ≤ (kahnRun doc.sections).2.2.length :=
      (hid.subperm hcomp).length_le
    have h3 : (ids doc.sections).length = doc.sections.length := List.length_map _ _
    omega
  have hbne : ((kahnRun doc.sections).2.2.length != doc.sections.length) = false := by
    rw [hlen]
    simp
  rw [topologicalSort_eq, hbne]
  rw [if_neg (by simp)]
  have hdict : ∀ x ∈ (kahnRun doc.sections).2.2,
      dictLastGet doc.sections x = some (secOf doc.sections x) :=
    fun x hx => dictLastGet_eq doc.sections hid x (hMsub x hx)
  have hout : (kahnRun doc.sections).2.2.filterMap (fun i => dictLastGet doc.sections i) =
      (kahnRun doc.sections).2.2.map (secOf doc.sections) :=
    filterMap_eq_map_of _ _ _ hdict
  refine ⟨rfl, ?_⟩
  rw [hout]
  intro s1 hs1 d hd
  obtain ⟨x, hxM, hxs⟩ := List.mem_map.1 hs1
  have hxids := hMsub x hxM
  obtain ⟨hxmem, hxid, hxdeps⟩ := secOf_spec doc.sections x hxids
  have hdx : d ∈ depsOf doc.sections x := by
    rw [← hxdeps, hxs]
    exact hd
  obtain ⟨hdM, hidx⟩ := hMord x hxM d hdx
  have hdids := hMsub d hdM
  obtain ⟨hdmem, hdid, _⟩ := secOf_spec doc.sections d hdids
  have hinj : ∀ a ∈ (kahnRun doc.sections).2.2, ∀ (z : String),
      secOf doc.sections a = secOf doc.sections z → z ∈ (kahnRun doc.sections).2.2 →
      a = z := by
    intro a ha z hgz hz
    have h1 := (secOf_spec doc.sections a (hMsub a ha)).2.1
    have h2 := (secOf_spec doc.sections z (hMsub z hz)).2.1
    rw [← h1, ← h2, hgz]
  refine ⟨secOf doc.sections d, List.mem_map_of_mem _ hdM, hdid, ?_⟩
  rw [← hxs]
  rw [idxIn_map_of_inj (secOf doc.sections) _ d hdM
    (fun a ha hga => hinj a ha d hga hdM)]
  rw [idxIn_map_of_inj (secOf doc.sections) _ x hxM
    (fun a ha hga => hinj a ha x hga hxM)]
  exact hidx

/-- Witness for claim C1 at a concrete acyclic document. -/
theorem topologicalSort_acyclic_respects_dependencies_witness :
    (topologicalSort acyclicDoc).2 = false ∧
    ∀ s1 ∈ (topologicalSort acyclicDoc).1, ∀ d ∈ s1.dependencies,
      ∃ s2 ∈ (topologicalSort acyclicDoc).1, s2.id = d ∧
        idxIn (topologicalSort acyclicDoc).1 s2 < idxIn (topologicalSort acyclicDoc).1 s1 :=
  topologicalSort_acyclic_respects_dependencies acyclicDoc (by decide) (by decide)
    (by decide)
    (fun i => if i = "b" then 0 else if i = "a" then 1 else 2)
    (by decide)

theorem chain_last_edge {R : String → String → Prop} :
    ∀ (l : List String) (a b : String), List.Chain R a (l ++ [b]) → ∃ p, R p b := by
  intro l
  induction l with
  | nil =>
    intro a b h
    rw [List.nil_append, List.chain_cons] at h
    exact ⟨a, h.1⟩
  | cons c l2 ih =>
    intro a b h
    rw [List.cons_append, List.chain_cons] at h
    exact ih c b h.2

theorem chain_climb (secs : List Section) (hid : (ids secs).Nodup)
    (M : List String)
    (hORD : ∀ y ∈ M, ∀ d ∈ depsOf secs y, d ∈ M ∧ idxIn M d < idxIn M y) :
    ∀ (l : List String) (a : String), List.Chain (depEdge secs) a l →
    ∀ b, l.getLast? = some b → b ∈ M → a ∈ M ∧ idxIn M a < idxIn M b := by
  intro l
  induction l with
  | nil =>
    intro a _ b hb
    cases hb
  | cons c0 l2 ih =>
    intro a hchain b hlast hbM
    rw [List.chain_cons] at hchain
    obtain ⟨hedge, hchain2⟩ := hchain
    have hdepOf : a ∈ depsOf secs c0 := by
      obtain ⟨s, hs, hsid, hadep⟩ := hedge
      rw [← hsid, depsOf_eq secs hid s hs]
      exact hadep
    cases l2 with
    | nil =>
      have hbc : c0 = b := by simpa using hlast
      subst hbc
      exact hORD c0 hbM a hdepOf
    | cons c1 l3 =>
      have hlast2 : (c1 :: l3).getLast? = some b := by
        rw [← hlast]
        exact List.getLast?_cons_cons.symm
      obtain ⟨hc0M, hidx⟩ := ih c0 hchain2 b hlast2 hbM
      obtain ⟨haM, hidx2⟩ := hORD c0 hc0M a hdepOf
      exact ⟨haM, Nat.lt_trans hidx2 hidx⟩

/-- Claim C3: for a Document with distinct section ids whose dependency
relation contains a cycle, the topological sort does not fail: it
returns exactly the original section order together with the
cycle-detected warning signal. -/
theorem topologicalSort_cycle_fallback (doc : Document)
    (hid : (ids doc.sections).Nodup)
    (hnd : ∀ s ∈ doc.sections, s.dependencies.Nodup)
    (hcyc : ∃ x ys, List.Chain (depEdge doc.sections) x (ys ++ [x])) :
    topologicalSort doc = (doc.sections, true) := by
  obtain ⟨x, ys, hchain⟩ := hcyc
  obtain ⟨hqE, hInv⟩ := kahnRun_final doc.sections hid hnd
  have hMnd : (kahnRun doc.sections).2.2.Nodup := by
    have := hInv.nd
    rw [hqE, List.append_nil] at this
    exact this
  have hMsub : ∀ y ∈ (kahnRun doc.sections).2.2, y ∈ ids doc.sections := by
    intro y hy
    exact hInv.sub y (by rw [hqE, List.append_nil]; exact hy)
  obtain ⟨p, hpx⟩ := chain_last_edge ys x x hchain
  obtain ⟨s, hs, hsid2, _⟩ := hpx
  have hxids : x ∈ ids doc.sections := by
    rw [← hsid2]
    exact List.mem_map_of_mem _ hs
  have hxM : x ∉ (kahnRun doc.sections).2.2 := by
    intro hxM
    obtain ⟨_, hlt⟩ := chain_climb doc.sections hid (kahnRun doc.sections).2.2
      hInv.ord (ys ++ [x]) x hchain x (List.getLast?_concat _) hxM
    omega
  have hlt := length_lt_of_missing (kahnRun doc.sections).2.2 (ids doc.sections)
    hMnd hMsub x hxids hxM
  have h3 : (ids doc.sections).length = doc.sections.length := List.length_map _ _
  have hne : (kahnRun doc.sections).2.2.length ≠ doc.sections.length := by omega
  rw [topologicalSort_eq, if_pos (bne_iff_ne.2 hne)]

/-- Witness for claim C3 at a concrete cyclic document. -/
theorem topologicalSort_cycle_fallback_witness :
    topologicalSort cyclicDoc = (cyclicDoc.sections, true) :=
  topologicalSort_cycle_fallback cyclicDoc (by decide) (by decide)
    ⟨"a", ["b"], by
      refine List.Chain.cons ?_ (List.Chain.cons ?_ List.Chain.nil)
      · exact ⟨Section.mk ("b") ("B") ("") 1 [] (["a"]) none 0,
          by simp [cyclicDoc], rfl, by simp⟩
      · exact ⟨Section.mk ("a") ("A") ("") 1 [] (["b"]) none 0,
          by simp [cyclicDoc], rfl, by simp⟩⟩

/-- Claim C10: if some section depends on an id carried by no section of
the document, the topological sort falls back to the original section
order with the cycle warning signal set, rather than failing. -/
theorem topologicalSort_missing_dep_fallback (doc : Document)
    (hid : (ids doc.sections).Nodup)
    (hnd : ∀ s ∈ doc.sections, s.dependencies.Nodup)
    (hmiss : ∃ s ∈ doc.sections, ∃ d ∈ s.dependencies, d ∉ ids doc.sections) :
    topologicalSort doc = (doc.sections, true) := by
  obtain ⟨s, hs, d, hd, hdno⟩ := hmiss
  obtain ⟨hqE, hInv⟩ := kahnRun_final doc.sections hid hnd
  have hMnd : (kahnRun doc.sections).2.2.Nodup := by
    have := hInv.nd
    rw [hqE, List.append_nil] at this
    exact this
  have hMsub : ∀ y ∈ (kahnRun doc.sections).2.2, y ∈ ids doc.sections := by
    intro y hy
    exact hInv.sub y (by rw [hqE, List.append_nil]; exact hy)
  have hsid : s.id ∈ ids doc.sections := List.mem_map_of_mem _ hs
  have hxM : s.id ∉ (kahnRun doc.sections).2.2 := by
    intro hmem
    have hdep : d ∈ depsOf doc.sections s.id := by
      rw [depsOf_eq _ hid s hs]
      exact hd
    have hdM := (hInv.ord s.id hmem d hdep).1
    exact hdno (hMsub d hdM)
  have hlt := length_lt_of_missing (kahnRun doc.sections).2.2 (ids doc.sections)
    hMnd hMsub s.id hsid hxM
  have h3 : (ids doc.sections).length = doc.sections.length := List.length_map _ _
  have hne : (kahnRun doc.sections).2.2.length ≠ doc.sections.length := by omega
  rw [topologicalSort_eq, if_pos (bne_iff_ne.2 hne)]

/-- Witness for claim C10 at a concrete document with a dangling
dependency id. -/
theorem topologicalSort_missing_dep_fallback_witness :
    topologicalSort danglingDoc = (danglingDoc.sections, true) :=
  topologicalSort_missing_dep_fallback danglingDoc (by decide) (by decide)
    ⟨Section.mk ("a") ("A") ("") 1 [] (["ghost"]) none 0,
      by simp [danglingDoc], "ghost", by simp, by decide⟩

end AT
